import Mathlib

/-!
# A binary max-heap over a caller-supplied comparator (`heap.go`)

Shallow embedding of the Go package `heap`.

* The backing slice `[]interface{}` is a `List α`; indices are Go `int`s, modelled
  as `Int` (they do become `-1`: `parentIndex 0`, `len(Slice) - 1` on an empty
  slice, `end - 1` in `Sort`).  Indices never exceed the slice length on the paths
  studied, so 64-bit wrap-around and the `float64` round trip inside
  `parentIndex` (exact below `2^53`) play no role.  The one exception is
  `siftDown` called with an arbitrary non-negative `start`: there `2*start + 1`
  overflows from `start = 2^62` on.  That call is studied on `siftDown64`, the same
  function with the wrap-around of Go's 64-bit `int` written out; the two agree for
  `start < 2^62` on slices of at most `2^62` elements (`siftDown64_eq_siftDown`).
* An indexing expression `h.Slice[i]` with `i` out of range panics in Go.  Every
  function that indexes therefore returns an `Option`: `none` is "no result"
  (the run-time panic).  The two `for` loops whose trip count is not a counter
  (`siftDown`, `siftUp`) are unrolled by structural recursion on a bound computed
  from their arguments; reaching the bound with the loop guard still true is
  `none` as well, and the theorems below show that it never happens.
* The comparator is a pair of total Boolean functions.
-/

namespace GoHeap

variable {α : Type}

/-- Comparator is the interface to be implemented by heap value comparators. -/
structure Comparator (α : Type) where
  /-- Equal returns whether i is equal to j. -/
  Equal : α → α → Bool
  /-- Less returns whether i is lower than j. -/
  Less : α → α → Bool

/-- The index of the parent of the child located at the given index:
`int(math.Floor(float64(childIndex-1) / 2))`. -/
def parentIndex (childIndex : Int) : Int :=
  Int.fdiv (childIndex - 1) 2

/-- The index of the left child of the parent located at the given index. -/
def leftChildIndex (parentIndex : Int) : Int :=
  2 * parentIndex + 1

/-- Heap: a comparator and the backing slice. -/
structure Heap (α : Type) where
  comp : Comparator α
  Slice : List α

/-- The Go indexing expression `s[i]`: `none` when `i` is out of range. -/
def index (s : List α) (i : Int) : Option α :=
  if 0 ≤ i then s[i.toNat]? else none

/-- The Go slicing expression `s[:n]`: `none` when `n` is out of range (Go accepts
`n` up to the capacity; the length is the stricter bound, and `Pop` stays below it). -/
def sliceTo (s : List α) (n : Int) : Option (List α) :=
  if 0 ≤ n ∧ n ≤ s.length then some (s.take n.toNat) else none

/-- In-place swap of the two items located at index i and j:
`h.Slice[i], h.Slice[j] = h.Slice[j], h.Slice[i]`. -/
def swapItems (s : List α) (i j : Int) : Option (List α) := do
  let b ← index s j
  let a ← index s i
  pure ((s.set i.toNat b).set j.toNat a)

/-- The loop of `siftDown`; the first argument bounds the number of iterations. -/
def siftDownLoop (c : Comparator α) (end_ : Int) : Nat → List α → Int → Option (List α)
  | 0, s, root => if leftChildIndex root ≤ end_ then none else some s
  | fuel + 1, s, root =>
    if leftChildIndex root ≤ end_ then do
      let child := leftChildIndex root
      let swap := root
      let x ← index s swap
      let y ← index s child
      let swap := if c.Less x y then child else swap
      let swap ←
        if child + 1 ≤ end_ then do
          let x ← index s swap
          let y ← index s (child + 1)
          pure (if c.Less x y then child + 1 else swap)
        else pure swap
      if swap = root then pure s
      else do
        let s ← swapItems s root swap
        siftDownLoop c end_ fuel s swap
    else some s

/-- Sift down starting at index start until the index end.  The root strictly
increases while it stays below `end`, so `end - start` iterations suffice. -/
def siftDown (c : Comparator α) (s : List α) (start end_ : Int) : Option (List α) :=
  siftDownLoop c end_ (end_ - start).toNat s start

/-- The loop of `siftUp`; the first argument bounds the number of iterations. -/
def siftUpLoop (c : Comparator α) : Nat → List α → Int → Option (List α)
  | 0, s, root => if parentIndex root ≥ 0 then none else some s
  | fuel + 1, s, root =>
    if parentIndex root ≥ 0 then do
      let parent := parentIndex root
      let swap := root
      let x ← index s parent
      let y ← index s swap
      let swap := if c.Less x y then parent else swap
      if swap = root then pure s
      else do
        let s ← swapItems s root swap
        siftUpLoop c fuel s swap
    else some s

/-- Sift up starting at index start until index 0.  The root strictly decreases
while it is positive, so `start` iterations suffice. -/
def siftUp (c : Comparator α) (s : List α) (start : Int) : Option (List α) :=
  siftUpLoop c start.toNat s start

/-- NewHeap creates a new empty Heap. -/
def NewHeap (c : Comparator α) : Heap α :=
  { comp := c, Slice := [] }

/-- The loop of `Heapify`, `for start := ...; start >= 0; start--`; the counter
argument is `start + 1`. -/
def heapifyLoop (c : Comparator α) (end_ : Int) : Nat → List α → Option (List α)
  | 0, s => some s
  | start + 1, s => do
    let s ← siftDown c s start end_
    heapifyLoop c end_ start s

/-- Heapify creates a new Heap given a slice and a value comparator. -/
def Heapify (slice : List α) (c : Comparator α) : Option (Heap α) := do
  let cp := slice
  let end_ : Int := (slice.length : Int) - 1
  let s ← heapifyLoop c end_ (parentIndex end_ + 1).toNat cp
  pure { comp := c, Slice := s }

/-- Pop removes the root from the Heap and returns it; the first component is the
returned value, `none` standing for Go's `nil`. -/
def Heap.Pop (h : Heap α) : Option (Option α × Heap α) :=
  if h.Slice.length < 1 then some (none, h)
  else do
    let end_ : Int := (h.Slice.length : Int) - 1
    let root ← index h.Slice 0
    if h.Slice.length = 1 then pure (some root, { h with Slice := [] })
    else do
      let s ← swapItems h.Slice 0 end_
      let s ← sliceTo s end_
      let s ← siftDown h.comp s 0 ((s.length : Int) - 1)
      pure (some root, { h with Slice := s })

/-- Push inserts a new value into the Heap. -/
def Heap.Push (h : Heap α) (val : α) : Option (Heap α) := do
  let s := h.Slice ++ [val]
  let s ← siftUp h.comp s ((s.length : Int) - 1)
  pure { h with Slice := s }

/-- RepairDown is used to sift down starting at index i. -/
def Heap.RepairDown (h : Heap α) (i : Int) : Option (Heap α) := do
  let s ← siftDown h.comp h.Slice i ((h.Slice.length : Int) - 1)
  pure { h with Slice := s }

/-- RepairUp is used to sift up starting at index i. -/
def Heap.RepairUp (h : Heap α) (i : Int) : Option (Heap α) := do
  let s ← siftUp h.comp h.Slice i
  pure { h with Slice := s }

/-- The loop of `Sort`, `for end := len - 1; end >= 0; end--`; the counter
argument is `end + 1`. -/
def sortLoop (c : Comparator α) : Nat → List α → Option (List α)
  | 0, s => some s
  | end_ + 1, s => do
    let s ← swapItems s 0 end_
    let s ← siftDown c s 0 ((end_ : Int) - 1)
    sortLoop c end_ s

/-- Sort runs the Heapsort algorithm in-place. -/
def Heap.Sort (h : Heap α) : Option (Heap α) := do
  let s ← sortLoop h.comp h.Slice.length h.Slice
  pure { h with Slice := s }

/-- The comparator of the test file: integers under `==` and `<`. -/
def intCmp : Comparator Int :=
  { Equal := fun i j => decide (i = j), Less := fun i j => decide (i < j) }


/-- The comparison `Less(s[i], s[j])`; `false` when an index is out of range. -/
def lessAt (c : Comparator α) (s : List α) (i j : Int) : Bool :=
  match index s i, index s j with
  | some x, some y => c.Less x y
  | _, _ => false

/-- A strict weak ordering: irreflexive, transitive, and incomparability is
transitive. -/
structure StrictWeakOrder (less : α → α → Bool) : Prop where
  irrefl : ∀ a, less a a = false
  trans : ∀ a b c, less a b = true → less b c = true → less a c = true
  incomp_trans : ∀ a b c, less a b = false → less b a = false → less b c = false →
    less c b = false → less a c = false ∧ less c a = false

/-- The max-heap invariant on the backing sequence: for every index `k ≥ 1`,
`Less(s[parent(k)], s[k])` is false. -/
def MaxHeap (c : Comparator α) (s : List α) : Prop :=
  ∀ k : Nat, k < s.length → 1 ≤ k → lessAt c s (parentIndex k) k = false

instance (c : Comparator α) (s : List α) : Decidable (MaxHeap c s) := by
  unfold MaxHeap
  infer_instance

/-- No node of `D` is `Less` than one of its children below position `n`. -/
def HeapOn (c : Comparator α) (s : List α) (D : Nat → Prop) (n : Nat) : Prop :=
  ∀ j k : Nat, D j → (k = 2 * j + 1 ∨ k = 2 * j + 2) → k < n → lessAt c s j k = false

/-- Non-decreasing order: for all indices `i < j`, `Less(s[j], s[i])` is false. -/
def Ascending (c : Comparator α) (s : List α) : Prop :=
  ∀ j : Nat, j < s.length → ∀ i : Nat, i < j → lessAt c s j i = false

instance (c : Comparator α) (s : List α) : Decidable (Ascending c s) := by
  unfold Ascending
  infer_instance

/-- A strict total order: irreflexive, transitive, and any two distinct elements
are comparable. -/
structure StrictTotalOrder (less : α → α → Bool) : Prop where
  irrefl : ∀ a, less a a = false
  trans : ∀ a b c, less a b = true → less b c = true → less a c = true
  total : ∀ a b, less a b = false → less b a = false → a = b

/-- Sorting a sequence directly in ascending order by the comparator's ordering
(`a` goes before `b` when `b` is not `Less` than `a`). -/
def sortedBy (c : Comparator α) (x : List α) : List α :=
  x.insertionSort (fun a b => c.Less b a = false)

/-- The mutating operations of the invariant-preservation property. -/
inductive Op (α : Type) where
  | push (v : α)
  | pop
  | repairUp (i : Int)
  | repairDown (i : Int)

/-- The index of a repair is a valid index of the slice at the time of the call. -/
def Op.valid (h : Heap α) : Op α → Prop
  | Op.push _ => True
  | Op.pop => True
  | Op.repairUp i => 0 ≤ i ∧ i < h.Slice.length
  | Op.repairDown i => 0 ≤ i ∧ i < h.Slice.length

/-- The heap after one operation (`none` if the operation faults). -/
def Heap.apply (h : Heap α) : Op α → Option (Heap α)
  | Op.push v => h.Push v
  | Op.pop => h.Pop.map Prod.snd
  | Op.repairUp i => h.RepairUp i
  | Op.repairDown i => h.RepairDown i

/-- The heaps reached from `NewHeap c` or `Heapify x c` by finitely many valid
operations. -/
inductive Reachable (c : Comparator α) : Heap α → Prop where
  | new : Reachable c (NewHeap c)
  | heapify (x : List α) (h : Heap α) : Heapify x c = some h → Reachable c h
  | step (h : Heap α) (op : Op α) (h' : Heap α) :
      Reachable c h → op.valid h → h.apply op = some h' → Reachable c h'

/-- Calling `Pop` `n` times in a row, collecting the returned values in order. -/
def popN : Nat → Heap α → Option (List (Option α) × Heap α)
  | 0, h => some ([], h)
  | n + 1, h => do
    let (r, h) ← h.Pop
    let (rs, h) ← popN n h
    pure (r :: rs, h)

/-- The subtree rooted at `start`: `start` itself and its descendants, the children
of node `j` being `2 * j + 1` and `2 * j + 2`. -/
inductive InSubtree (start : Nat) : Nat → Prop where
  | root : InSubtree start start
  | left (j : Nat) : InSubtree start j → InSubtree start (2 * j + 1)
  | right (j : Nat) : InSubtree start j → InSubtree start (2 * j + 2)

/-- The caller's out-of-band replacement `h.Slice[i] = v`: `none` when `i` is out of
range. -/
def setAt (s : List α) (i : Int) (v : α) : Option (List α) :=
  if 0 ≤ i ∧ i < s.length then some (s.set i.toNat v) else none

/-- The value a Go `int` (64 bits, two's complement) holds for the exact result `x`:
`x` reduced into `-2^63 ≤ · < 2^63`. -/
def wrapInt (x : Int) : Int :=
  (x + 9223372036854775808) % 18446744073709551616 - 9223372036854775808

/-- The function `leftChildIndex` in Go's 64-bit `int` arithmetic: the product and the
sum of `2*parentIndex + 1` wrap around. -/
def leftChildIndex64 (parentIndex : Int) : Int :=
  wrapInt (wrapInt (2 * parentIndex) + 1)

/-- The loop of `siftDown` in Go's 64-bit `int` arithmetic: `siftDownLoop` with
`leftChildIndex(root)` and `child+1` wrapping around. -/
def siftDownLoop64 (c : Comparator α) (end_ : Int) : Nat → List α → Int → Option (List α)
  | 0, s, root => if leftChildIndex64 root ≤ end_ then none else some s
  | fuel + 1, s, root =>
    if leftChildIndex64 root ≤ end_ then do
      let child := leftChildIndex64 root
      let swap := root
      let x ← index s swap
      let y ← index s child
      let swap := if c.Less x y then child else swap
      let swap ←
        if wrapInt (child + 1) ≤ end_ then do
          let x ← index s swap
          let y ← index s (wrapInt (child + 1))
          pure (if c.Less x y then wrapInt (child + 1) else swap)
        else pure swap
      if swap = root then pure s
      else do
        let s ← swapItems s root swap
        siftDownLoop64 c end_ fuel s swap
    else some s

/-- The function `siftDown` in Go's 64-bit `int` arithmetic, for any `start` a Go
`int` can hold.  An iteration that does not fault has read `Slice[root]` and
`Slice[child]` and moves the root to a larger valid index, so `len(Slice)`
iterations suffice. -/
def siftDown64 (c : Comparator α) (s : List α) (start end_ : Int) : Option (List α) :=
  siftDownLoop64 c end_ s.length s start

/-! ## Theorems -/

theorem index_natCast (s : List α) (i : Nat) : index s (i : Int) = s[i]? := by
  simp [index]

theorem index_zero (s : List α) : index s 0 = s[0]? := by
  simp [index]

theorem leftChildIndex_natCast (r : Nat) :
    leftChildIndex (r : Int) = ((2 * r + 1 : Nat) : Int) := by
  simp [leftChildIndex]

theorem parentIndex_eq (k : Int) : parentIndex k = (k - 1) / 2 := by
  unfold parentIndex
  exact Int.fdiv_eq_ediv _ (by decide)

theorem parentIndex_natCast (k : Nat) (hk : 1 ≤ k) :
    parentIndex (k : Int) = (((k - 1) / 2 : Nat) : Int) := by
  rw [parentIndex_eq]
  omega

theorem lessAt_natCast (c : Comparator α) (s : List α) (i j : Nat) (x y : α)
    (hi : s[i]? = some x) (hj : s[j]? = some y) :
    lessAt c s i j = c.Less x y := by
  simp [lessAt, index_natCast, hi, hj]

theorem lessAt_congr (c : Comparator α) (s t : List α) (i j i' j' : Nat)
    (hi : t[i']? = s[i]?) (hj : t[j']? = s[j]?) :
    lessAt c t i' j' = lessAt c s i j := by
  simp [lessAt, index_natCast, hi, hj]

theorem set_cons_perm (s : List α) (j : Nat) (a b : α) (h : s[j]? = some b) :
    (b :: s.set j a).Perm (a :: s) := by
  induction s generalizing j with
  | nil => simp at h
  | cons x t ih =>
    cases j with
    | zero =>
      simp at h
      subst h
      simpa using List.Perm.swap a x t
    | succ j =>
      simp at h
      have := ih j h
      simp only [List.set_cons_succ]
      exact ((List.Perm.swap x b _).trans ((this.cons x).trans (List.Perm.swap a x t)))

theorem set_set_perm_of_getElem? (s : List α) (i j : Nat) (a b : α)
    (hi : s[i]? = some a) (hj : s[j]? = some b) :
    ((s.set i b).set j a).Perm s := by
  induction s generalizing i j with
  | nil => simp at hi
  | cons x t ih =>
    cases i with
    | zero =>
      simp at hi
      subst hi
      cases j with
      | zero => simp at hj; subst hj; simp
      | succ j =>
        simp at hj
        simpa using set_cons_perm t j x b hj
    | succ i =>
      simp at hi
      cases j with
      | zero =>
        simp at hj
        subst hj
        simpa using (set_cons_perm t i x a hi)
      | succ j =>
        simp at hj
        simpa using ih i j hi hj

/-- What `swapItems` does on two valid indices. -/
theorem swapItems_spec (s : List α) (i j : Nat) (hi : i < s.length) (hj : j < s.length) :
    ∃ t, swapItems s i j = some t ∧ t.length = s.length ∧ t.Perm s ∧
      t[i]? = s[j]? ∧ t[j]? = s[i]? ∧ ∀ k, k ≠ i → k ≠ j → t[k]? = s[k]? := by
  refine ⟨(s.set i s[j]).set j s[i], ?_, by simp, ?_, ?_, ?_, ?_⟩
  · simp [swapItems, index_natCast, List.getElem?_eq_getElem hi, List.getElem?_eq_getElem hj]
  · exact set_set_perm_of_getElem? s i j _ _ (List.getElem?_eq_getElem hi)
      (List.getElem?_eq_getElem hj)
  · by_cases hij : i = j
    · subst hij; simp [List.getElem?_set, hi]
    · simp [List.getElem?_set, hi, hj, hij, Ne.symm hij]
  · simp [List.getElem?_set, hi, hj]
  · intro k hki hkj
    simp [List.getElem?_set, hi, hj, Ne.symm hki, Ne.symm hkj]


theorem siftDownLoop_succ_eq (c : Comparator α) (end_ : Int) (fuel : Nat) (s : List α)
    (root : Int) :
    siftDownLoop c end_ (fuel + 1) s root =
      if leftChildIndex root ≤ end_ then
        (index s root).bind fun x => (index s (leftChildIndex root)).bind fun y =>
          if leftChildIndex root + 1 ≤ end_ then
            (index s (if c.Less x y then leftChildIndex root else root)).bind fun x' =>
              (index s (leftChildIndex root + 1)).bind fun y' =>
                if (if c.Less x' y' then leftChildIndex root + 1
                    else (if c.Less x y then leftChildIndex root else root)) = root then some s
                else (swapItems s root (if c.Less x' y' then leftChildIndex root + 1
                    else (if c.Less x y then leftChildIndex root else root))).bind fun t =>
                  siftDownLoop c end_ fuel t (if c.Less x' y' then leftChildIndex root + 1
                    else (if c.Less x y then leftChildIndex root else root))
          else
            if (if c.Less x y then leftChildIndex root else root) = root then some s
            else (swapItems s root (if c.Less x y then leftChildIndex root else root)).bind
              fun t => siftDownLoop c end_ fuel t
                (if c.Less x y then leftChildIndex root else root)
      else some s := by
  rw [siftDownLoop]
  rfl

/-- One iteration of the `siftDown` loop at a root that has a left child within
the boundary `n - 1`. -/
theorem siftDownLoop_step (c : Comparator α) (s : List α) (n r fuel : Nat)
    (hn : n ≤ s.length) (hr : 2 * r + 1 < n) :
    (lessAt c s r (2 * r + 1 : Nat) = false ∧
      (2 * r + 2 < n → lessAt c s r (2 * r + 2 : Nat) = false) ∧
      siftDownLoop c ((n : Int) - 1) (fuel + 1) s r = some s) ∨
    (lessAt c s r (2 * r + 1 : Nat) = true ∧
      (2 * r + 2 < n → lessAt c s (2 * r + 1 : Nat) (2 * r + 2 : Nat) = false) ∧
      siftDownLoop c ((n : Int) - 1) (fuel + 1) s r =
        (swapItems s r (2 * r + 1 : Nat)).bind
          (fun t => siftDownLoop c ((n : Int) - 1) fuel t (2 * r + 1 : Nat))) ∨
    (2 * r + 2 < n ∧
      ((lessAt c s r (2 * r + 1 : Nat) = true ∧
          lessAt c s (2 * r + 1 : Nat) (2 * r + 2 : Nat) = true) ∨
        (lessAt c s r (2 * r + 1 : Nat) = false ∧
          lessAt c s r (2 * r + 2 : Nat) = true)) ∧
      siftDownLoop c ((n : Int) - 1) (fuel + 1) s r =
        (swapItems s r (2 * r + 2 : Nat)).bind
          (fun t => siftDownLoop c ((n : Int) - 1) fuel t (2 * r + 2 : Nat))) := by
  obtain ⟨x, hx⟩ : ∃ x, s[r]? = some x := ⟨_, List.getElem?_eq_getElem (by omega)⟩
  obtain ⟨y, hy⟩ : ∃ y, s[2 * r + 1]? = some y := ⟨_, List.getElem?_eq_getElem (by omega)⟩
  have e2 : ((2 * r + 1 : Nat) : Int) + 1 = ((2 * r + 2 : Nat) : Int) := by push_cast; ring
  have g1 : ((2 * r + 1 : Nat) : Int) ≤ (n : Int) - 1 := by omega
  have ne1 : ¬ ((2 * r + 1 : Nat) : Int) = (r : Int) := by omega
  have ne2 : ¬ ((2 * r + 2 : Nat) : Int) = (r : Int) := by omega
  rw [lessAt_natCast c s _ _ _ _ hx hy]
  by_cases h2 : 2 * r + 2 < n
  · obtain ⟨z, hz⟩ : ∃ z, s[2 * r + 2]? = some z := ⟨_, List.getElem?_eq_getElem (by omega)⟩
    have g2 : ((2 * r + 2 : Nat) : Int) ≤ (n : Int) - 1 := by omega
    rw [lessAt_natCast c s _ _ _ _ hx hz, lessAt_natCast c s _ _ _ _ hy hz]
    by_cases a : c.Less x y = true
    · by_cases b : c.Less y z = true
      · refine Or.inr (Or.inr ⟨h2, Or.inl ⟨a, b⟩, ?_⟩)
        rw [siftDownLoop_succ_eq]
        simp only [leftChildIndex_natCast, e2, index_natCast, hx, hy, hz, Option.some_bind,
          if_pos g1, if_pos g2, a, b, if_true, if_neg ne2]
      · refine Or.inr (Or.inl ⟨a, fun _ => by simpa using b, ?_⟩)
        rw [siftDownLoop_succ_eq]
        simp only [leftChildIndex_natCast, e2, index_natCast, hx, hy, hz, Option.some_bind,
          if_pos g1, if_pos g2, a, b, if_true, if_false, Bool.false_eq_true, if_neg ne1]
    · by_cases b : c.Less x z = true
      · refine Or.inr (Or.inr ⟨h2, Or.inr ⟨by simpa using a, b⟩, ?_⟩)
        rw [siftDownLoop_succ_eq]
        simp only [leftChildIndex_natCast, e2, index_natCast, hx, hy, hz, Option.some_bind,
          if_pos g1, if_pos g2, a, b, if_true, if_false, Bool.false_eq_true, if_neg ne2]
      · refine Or.inl ⟨by simpa using a, fun _ => by simpa using b, ?_⟩
        rw [siftDownLoop_succ_eq]
        simp only [leftChildIndex_natCast, e2, index_natCast, hx, hy, hz, Option.some_bind,
          if_pos g1, if_pos g2, a, b, if_true, if_false, Bool.false_eq_true]
  · have g2 : ¬ ((2 * r + 2 : Nat) : Int) ≤ (n : Int) - 1 := by omega
    by_cases a : c.Less x y = true
    · refine Or.inr (Or.inl ⟨a, fun h => absurd h h2, ?_⟩)
      rw [siftDownLoop_succ_eq]
      simp only [leftChildIndex_natCast, e2, index_natCast, hx, hy, Option.some_bind,
        if_pos g1, if_neg g2, a, if_true, if_neg ne1]
    · refine Or.inl ⟨by simpa using a, fun h => absurd h h2, ?_⟩
      rw [siftDownLoop_succ_eq]
      simp only [leftChildIndex_natCast, e2, index_natCast, hx, hy, Option.some_bind,
        if_pos g1, if_neg g2, a, if_true, if_false, Bool.false_eq_true]

/-- The `siftDown` loop stops at a root without a left child within the boundary. -/
theorem siftDownLoop_stop (c : Comparator α) (s : List α) (n r fuel : Nat)
    (hr : n ≤ 2 * r + 1) :
    siftDownLoop c ((n : Int) - 1) fuel s r = some s := by
  have g : ¬ leftChildIndex (r : Int) ≤ (n : Int) - 1 := by
    rw [leftChildIndex_natCast]; omega
  cases fuel with
  | zero => simp only [siftDownLoop, if_neg g]
  | succ f => rw [siftDownLoop_succ_eq, if_neg g]


theorem StrictWeakOrder.asymm {less : α → α → Bool} (h : StrictWeakOrder less) (a b : α)
    (hab : less a b = true) : less b a = false := by
  cases hba : less b a with
  | false => rfl
  | true =>
    have := h.trans a b a hab hba
    rw [h.irrefl a] at this
    exact absurd this (by decide)

theorem StrictWeakOrder.neg_trans {less : α → α → Bool} (h : StrictWeakOrder less) (a b c : α)
    (hab : less a b = false) (hbc : less b c = false) : less a c = false := by
  cases hac : less a c with
  | false => rfl
  | true =>
    have hba : less b a = false := by
      cases hba : less b a with
      | false => rfl
      | true =>
        have := h.trans b a c hba hac
        rw [hbc] at this
        exact absurd this (by decide)
    have hcb : less c b = false := by
      cases hcb : less c b with
      | false => rfl
      | true =>
        have := h.trans a c b hac hcb
        rw [hab] at this
        exact absurd this (by decide)
    have := (h.incomp_trans a b c hab hba hbc hcb).1
    rw [hac] at this
    exact absurd this (by decide)

theorem lessAt_irrefl (c : Comparator α) (hc : StrictWeakOrder c.Less) (s : List α) (i : Int) :
    lessAt c s i i = false := by
  unfold lessAt
  cases index s i with
  | none => rfl
  | some x => exact hc.irrefl x

theorem lessAt_trans (c : Comparator α) (hc : StrictWeakOrder c.Less) (s : List α)
    (i j k : Int) (hij : lessAt c s i j = true) (hjk : lessAt c s j k = true) :
    lessAt c s i k = true := by
  unfold lessAt at *
  cases hi : index s i <;> cases hj : index s j <;> cases hk : index s k <;>
    simp only [hi, hj, hk] at hij hjk ⊢ <;> first | exact absurd hij (by decide) | exact absurd hjk (by decide) | skip
  exact hc.trans _ _ _ hij hjk

theorem lessAt_asymm (c : Comparator α) (hc : StrictWeakOrder c.Less) (s : List α)
    (i j : Int) (hij : lessAt c s i j = true) : lessAt c s j i = false := by
  unfold lessAt at *
  cases hi : index s i <;> cases hj : index s j <;>
    simp only [hi, hj] at hij ⊢
  exact hc.asymm _ _ hij

theorem lessAt_neg_trans (c : Comparator α) (hc : StrictWeakOrder c.Less) (s : List α)
    (i k : Int) (j : Nat) (hj : j < s.length) (hij : lessAt c s i j = false)
    (hjk : lessAt c s j k = false) : lessAt c s i k = false := by
  unfold lessAt at *
  have hj' : index s (j : Int) = some s[j] := by
    rw [index_natCast]; exact List.getElem?_eq_getElem hj
  cases hi : index s i <;> cases hk : index s k <;>
    simp only [hi, hj', hk] at hij hjk ⊢
  exact hc.neg_trans _ _ _ hij hjk
/-- The `siftDown` loop never faults below a valid boundary, and only permutes
positions that are in `D` (any set of positions that holds the root and is closed
under taking children) and within the boundary. -/
theorem siftDownLoop_struct (c : Comparator α) (n : Nat) (D : Nat → Prop)
    (hD : ∀ j, D j → D (2 * j + 1) ∧ D (2 * j + 2)) :
    ∀ (fuel : Nat) (s : List α) (r : Nat), n ≤ s.length → D r → n ≤ r + fuel + 1 →
      ∃ t, siftDownLoop c ((n : Int) - 1) fuel s r = some t ∧ t.length = s.length ∧
        t.Perm s ∧ (∀ k, (n ≤ k ∨ ¬ D k) → t[k]? = s[k]?) ∧
        (∀ i, i < n → ∃ i', i' < n ∧ t[i]? = s[i']?) := by
  intro fuel
  induction fuel with
  | zero =>
    intro s r _ _ hf
    exact ⟨s, siftDownLoop_stop c s n r 0 (by omega), rfl, List.Perm.refl _,
      fun _ _ => rfl, fun i hi => ⟨i, hi, rfl⟩⟩
  | succ f ih =>
    intro s r hn hDr hf
    by_cases hr : n ≤ 2 * r + 1
    · exact ⟨s, siftDownLoop_stop c s n r _ hr, rfl, List.Perm.refl _,
        fun _ _ => rfl, fun i hi => ⟨i, hi, rfl⟩⟩
    · have descend : ∀ ch : Nat, (ch = 2 * r + 1 ∨ ch = 2 * r + 2) → ch < n →
          siftDownLoop c ((n : Int) - 1) (f + 1) s r =
            (swapItems s r ch).bind (fun t => siftDownLoop c ((n : Int) - 1) f t ch) →
          ∃ t, siftDownLoop c ((n : Int) - 1) (f + 1) s r = some t ∧
            t.length = s.length ∧ t.Perm s ∧ (∀ k, (n ≤ k ∨ ¬ D k) → t[k]? = s[k]?) ∧
            (∀ i, i < n → ∃ i', i' < n ∧ t[i]? = s[i']?) := by
        intro ch hch hchn heq
        obtain ⟨s1, hs1, hlen1, hperm1, h1r, h1c, h1o⟩ :=
          swapItems_spec s r ch (by omega) (by omega)
        have hDch : D ch := by
          rcases hch with h | h
          · rw [h]; exact (hD r hDr).1
          · rw [h]; exact (hD r hDr).2
        obtain ⟨t, ht, hlen, hperm, hframe, hin⟩ :=
          ih s1 ch (by omega) hDch (by omega)
        refine ⟨t, ?_, by omega, hperm.trans hperm1, ?_, ?_⟩
        · rw [heq, hs1, Option.some_bind, ht]
        · intro k hk
          rw [hframe k hk]
          apply h1o
          · rintro rfl
            rcases hk with hk | hk
            · omega
            · exact hk hDr
          · rintro rfl
            rcases hk with hk | hk
            · omega
            · exact hk hDch
        · intro i hi
          obtain ⟨i', hi', e⟩ := hin i hi
          by_cases e1 : i' = r
          · exact ⟨ch, hchn, by rw [e, e1, h1r]⟩
          · by_cases e2 : i' = ch
            · exact ⟨r, by omega, by rw [e, e2, h1c]⟩
            · exact ⟨i', hi', by rw [e, h1o i' e1 e2]⟩
      rcases siftDownLoop_step c s n r f hn (by omega) with ⟨_, _, h⟩ | ⟨_, _, h⟩ | ⟨h2, _, h⟩
      · exact ⟨s, h, rfl, List.Perm.refl _, fun _ _ => rfl, fun i hi => ⟨i, hi, rfl⟩⟩
      · exact descend (2 * r + 1) (Or.inl rfl) (by omega) h
      · exact descend (2 * r + 2) (Or.inr rfl) h2 h

/-- With a strict weak ordering, the `siftDown` loop at root `r` turns a sequence
that satisfies the heap condition at every node of `D` other than `r` (and in which
the children of `r` are not above the parent of `r`) into one that satisfies it
at every node of `D`. -/
theorem siftDownLoop_heap (c : Comparator α) (hc : StrictWeakOrder c.Less) (n : Nat)
    (D : Nat → Prop) (hD : ∀ j, D j → D (2 * j + 1) ∧ D (2 * j + 2)) :
    ∀ (fuel : Nat) (s : List α) (r : Nat), n ≤ s.length → D r →
      (∀ j k : Nat, D j → j ≠ r → (k = 2 * j + 1 ∨ k = 2 * j + 2) → k < n →
        lessAt c s j k = false) →
      (∀ p k : Nat, D p → (r = 2 * p + 1 ∨ r = 2 * p + 2) →
        (k = 2 * r + 1 ∨ k = 2 * r + 2) → k < n → lessAt c s p k = false) →
      ∀ t, siftDownLoop c ((n : Int) - 1) fuel s r = some t → HeapOn c t D n := by
  intro fuel
  induction fuel with
  | zero =>
    intro s r hn hDr H1 H2 t ht
    by_cases hr : n ≤ 2 * r + 1
    · rw [siftDownLoop_stop c s n r 0 hr] at ht
      cases ht
      intro j k hj hk hkn
      by_cases e : j = r
      · subst e; omega
      · exact H1 j k hj e hk hkn
    · have g : leftChildIndex (r : Int) ≤ (n : Int) - 1 := by
        rw [leftChildIndex_natCast]; omega
      simp only [siftDownLoop, if_pos g] at ht
      cases ht
  | succ f ih =>
    intro s r hn hDr H1 H2 t ht
    by_cases hr : n ≤ 2 * r + 1
    · rw [siftDownLoop_stop c s n r _ hr] at ht
      cases ht
      intro j k hj hk hkn
      by_cases e : j = r
      · subst e; omega
      · exact H1 j k hj e hk hkn
    · have descend : ∀ ch : Nat, (ch = 2 * r + 1 ∨ ch = 2 * r + 2) → ch < n →
          lessAt c s r ch = true →
          (∀ k : Nat, (k = 2 * r + 1 ∨ k = 2 * r + 2) → k < n → lessAt c s ch k = false) →
          siftDownLoop c ((n : Int) - 1) (f + 1) s r =
            (swapItems s r ch).bind (fun t => siftDownLoop c ((n : Int) - 1) f t ch) →
          HeapOn c t D n := by
        intro ch hch hchn F1 F2 heq
        obtain ⟨s1, hs1, hlen1, _, h1r, h1c, h1o⟩ :=
          swapItems_spec s r ch (by omega) (by omega)
        have hDch : D ch := by
          rcases hch with h | h
          · rw [h]; exact (hD r hDr).1
          · rw [h]; exact (hD r hDr).2
        rw [heq, hs1, Option.some_bind] at ht
        refine ih s1 ch (by omega) hDch ?_ ?_ t ht
        · intro j k hj hjc hk hkn
          by_cases e : j = r
          · subst e
            by_cases e2 : k = ch
            · rw [e2, lessAt_congr c s s1 ch j j ch h1r h1c]
              exact lessAt_asymm c hc s _ _ F1
            · rw [lessAt_congr c s s1 ch k j k h1r (h1o k (by omega) e2)]
              exact F2 k hk hkn
          · have hkc : k ≠ ch := by omega
            by_cases e2 : k = r
            · subst e2
              rw [lessAt_congr c s s1 j ch j k (h1o j e hjc) h1r]
              exact H2 j ch hj hk hch hchn
            · rw [lessAt_congr c s s1 j k j k (h1o j e hjc) (h1o k e2 hkc)]
              exact H1 j k hj e hk hkn
        · intro p k hp hpc hk hkn
          have e : p = r := by omega
          subst e
          rw [lessAt_congr c s s1 ch k p k h1r (h1o k (by omega) (by omega))]
          exact H1 ch k hDch (by omega) hk hkn
      rcases siftDownLoop_step c s n r f hn (by omega) with
        ⟨a, b, h⟩ | ⟨a, b, h⟩ | ⟨h2, ab, h⟩
      · rw [h] at ht
        cases ht
        intro j k hj hk hkn
        by_cases e : j = r
        · subst e
          rcases hk with hk | hk
          · rw [hk]; exact a
          · rw [hk]; exact b (by omega)
        · exact H1 j k hj e hk hkn
      · refine descend (2 * r + 1) (Or.inl rfl) (by omega) a ?_ h
        intro k hk hkn
        rcases hk with hk | hk
        · rw [hk]; exact lessAt_irrefl c hc s _
        · rw [hk]; exact b (by omega)
      · have hl : (2 * r + 1) < s.length := by omega
        rcases ab with ⟨a, b⟩ | ⟨a, b⟩
        · refine descend (2 * r + 2) (Or.inr rfl) h2 (lessAt_trans c hc s _ _ _ a b) ?_ h
          intro k hk hkn
          rcases hk with hk | hk
          · rw [hk]; exact lessAt_asymm c hc s _ _ b
          · rw [hk]; exact lessAt_irrefl c hc s _
        · refine descend (2 * r + 2) (Or.inr rfl) h2 b ?_ h
          intro k hk hkn
          rcases hk with hk | hk
          · rw [hk]
            cases hrl : lessAt c s ((2 * r + 2 : Nat) : Int) ((2 * r + 1 : Nat) : Int) with
            | false => rfl
            | true =>
              have := lessAt_trans c hc s _ _ _ b hrl
              rw [a] at this
              exact absurd this (by decide)
          · rw [hk]; exact lessAt_irrefl c hc s _
/-- The function `siftDown` from a valid root never faults within a valid boundary and only
permutes positions of `D` within the boundary. -/
theorem siftDown_struct (c : Comparator α) (s : List α) (r n : Nat) (D : Nat → Prop)
    (hD : ∀ j, D j → D (2 * j + 1) ∧ D (2 * j + 2)) (hn : n ≤ s.length) (hr : D r) :
    ∃ t, siftDown c s r ((n : Int) - 1) = some t ∧ t.length = s.length ∧
      t.Perm s ∧ (∀ k, (n ≤ k ∨ ¬ D k) → t[k]? = s[k]?) ∧
      (∀ i, i < n → ∃ i', i' < n ∧ t[i]? = s[i']?) :=
  siftDownLoop_struct c n D hD _ s r hn hr (by omega)

theorem siftDown_heap (c : Comparator α) (hc : StrictWeakOrder c.Less) (s : List α)
    (r n : Nat) (D : Nat → Prop) (hD : ∀ j, D j → D (2 * j + 1) ∧ D (2 * j + 2))
    (hn : n ≤ s.length) (hr : D r)
    (H1 : ∀ j k : Nat, D j → j ≠ r → (k = 2 * j + 1 ∨ k = 2 * j + 2) → k < n →
      lessAt c s j k = false)
    (H2 : ∀ p k : Nat, D p → (r = 2 * p + 1 ∨ r = 2 * p + 2) →
      (k = 2 * r + 1 ∨ k = 2 * r + 2) → k < n → lessAt c s p k = false)
    (t : List α) (ht : siftDown c s r ((n : Int) - 1) = some t) : HeapOn c t D n :=
  siftDownLoop_heap c hc n D hD _ s r hn hr H1 H2 t ht

theorem siftUpLoop_succ_eq (c : Comparator α) (fuel : Nat) (s : List α) (root : Int) :
    siftUpLoop c (fuel + 1) s root =
      if parentIndex root ≥ 0 then
        (index s (parentIndex root)).bind fun x => (index s root).bind fun y =>
          if (if c.Less x y then parentIndex root else root) = root then some s
          else (swapItems s root (if c.Less x y then parentIndex root else root)).bind
            fun t => siftUpLoop c fuel t (if c.Less x y then parentIndex root else root)
      else some s := by
  rw [siftUpLoop]
  rfl

/-- The `siftUp` loop stops at the root. -/
theorem siftUpLoop_stop (c : Comparator α) (s : List α) (fuel : Nat) :
    siftUpLoop c fuel s ((0 : Nat) : Int) = some s := by
  have g : ¬ parentIndex ((0 : Nat) : Int) ≥ 0 := by
    rw [parentIndex_eq]; omega
  cases fuel with
  | zero => simp only [siftUpLoop, if_neg g]
  | succ f => rw [siftUpLoop_succ_eq, if_neg g]

/-- One iteration of the `siftUp` loop below the root. -/
theorem siftUpLoop_step (c : Comparator α) (s : List α) (r fuel : Nat)
    (hr : r < s.length) (hr1 : 1 ≤ r) :
    (lessAt c s ((r - 1) / 2 : Nat) r = false ∧ siftUpLoop c (fuel + 1) s r = some s) ∨
    (lessAt c s ((r - 1) / 2 : Nat) r = true ∧
      siftUpLoop c (fuel + 1) s r =
        (swapItems s r ((r - 1) / 2 : Nat)).bind
          (fun t => siftUpLoop c fuel t ((r - 1) / 2 : Nat))) := by
  obtain ⟨x, hx⟩ : ∃ x, s[(r - 1) / 2]? = some x := ⟨_, List.getElem?_eq_getElem (by omega)⟩
  obtain ⟨y, hy⟩ : ∃ y, s[r]? = some y := ⟨_, List.getElem?_eq_getElem hr⟩
  have g : parentIndex (r : Int) ≥ 0 := by
    rw [parentIndex_eq]; omega
  have ne : ¬ (((r - 1) / 2 : Nat) : Int) = (r : Int) := by omega
  rw [lessAt_natCast c s _ _ _ _ hx hy]
  by_cases a : c.Less x y = true
  · refine Or.inr ⟨a, ?_⟩
    rw [siftUpLoop_succ_eq, if_pos g]
    simp only [parentIndex_natCast r hr1, index_natCast, hx, hy, Option.some_bind, a,
      if_true, if_neg ne]
  · refine Or.inl ⟨by simpa using a, ?_⟩
    rw [siftUpLoop_succ_eq, if_pos g]
    simp only [parentIndex_natCast r hr1, index_natCast, hx, hy, Option.some_bind, a,
      if_true, if_false, Bool.false_eq_true]

/-- The `siftUp` loop from a valid index never faults and only permutes the
sequence, leaving every position above the start untouched. -/
theorem siftUpLoop_struct (c : Comparator α) :
    ∀ (fuel : Nat) (s : List α) (r : Nat), r < s.length → r ≤ fuel →
      ∃ t, siftUpLoop c fuel s r = some t ∧ t.length = s.length ∧ t.Perm s ∧
        (∀ k, r < k → t[k]? = s[k]?) := by
  intro fuel
  induction fuel with
  | zero =>
    intro s r _ hf
    have : r = 0 := by omega
    subst this
    exact ⟨s, siftUpLoop_stop c s 0, rfl, List.Perm.refl _, fun _ _ => rfl⟩
  | succ f ih =>
    intro s r hr hf
    by_cases h0 : r = 0
    · subst h0
      exact ⟨s, siftUpLoop_stop c s _, rfl, List.Perm.refl _, fun _ _ => rfl⟩
    · rcases siftUpLoop_step c s r f hr (by omega) with ⟨_, h⟩ | ⟨_, h⟩
      · exact ⟨s, h, rfl, List.Perm.refl _, fun _ _ => rfl⟩
      · obtain ⟨s1, hs1, hlen1, hperm1, _, _, h1o⟩ :=
          swapItems_spec s r ((r - 1) / 2) hr (by omega)
        obtain ⟨t, ht, hlen, hperm, hframe⟩ := ih s1 ((r - 1) / 2) (by omega) (by omega)
        refine ⟨t, ?_, by omega, hperm.trans hperm1, ?_⟩
        · rw [h, hs1, Option.some_bind, ht]
        · intro k hk
          rw [hframe k (by omega), h1o k (by omega) (by omega)]

/-- With a strict weak ordering, the `siftUp` loop at `r` turns a sequence in
which only the edge above `r` may violate the heap condition (the children of `r`
not being above the parent of `r`) into one that satisfies it everywhere. -/
theorem siftUpLoop_heap (c : Comparator α) (hc : StrictWeakOrder c.Less) :
    ∀ (fuel : Nat) (s : List α) (r : Nat), r < s.length → r ≤ fuel →
      (∀ k : Nat, 1 ≤ k → k < s.length → k ≠ r →
        lessAt c s ((k - 1) / 2 : Nat) k = false) →
      (∀ k : Nat, (k = 2 * r + 1 ∨ k = 2 * r + 2) → k < s.length → 1 ≤ r →
        lessAt c s ((r - 1) / 2 : Nat) k = false) →
      ∀ t, siftUpLoop c fuel s r = some t →
        ∀ k : Nat, 1 ≤ k → k < t.length → lessAt c t ((k - 1) / 2 : Nat) k = false := by
  intro fuel
  induction fuel with
  | zero =>
    intro s r _ hf H1 _ t ht k hk hkn
    have : r = 0 := by omega
    subst this
    rw [siftUpLoop_stop c s 0] at ht
    cases ht
    exact H1 k hk hkn (by omega)
  | succ f ih =>
    intro s r hr hf H1 H2 t ht k hk hkn
    by_cases h0 : r = 0
    · subst h0
      rw [siftUpLoop_stop c s _] at ht
      cases ht
      exact H1 k hk hkn (by omega)
    · rcases siftUpLoop_step c s r f hr (by omega) with ⟨a, h⟩ | ⟨F, h⟩
      · rw [h] at ht
        cases ht
        by_cases e : k = r
        · rw [e]; exact a
        · exact H1 k hk hkn e
      · obtain ⟨s1, hs1, hlen1, _, h1r, h1p, h1o⟩ :=
          swapItems_spec s r ((r - 1) / 2) hr (by omega)
        rw [h, hs1, Option.some_bind] at ht
        have hp : (r - 1) / 2 < s.length := by omega
        refine ih s1 ((r - 1) / 2) (by omega) (by omega) ?_ ?_ t ht k hk hkn
        · intro k hk hkn hkp
          rw [hlen1] at hkn
          by_cases e : k = r
          · rw [e, lessAt_congr c s s1 r ((r - 1) / 2) ((r - 1) / 2) r h1p h1r]
            exact lessAt_asymm c hc s _ _ F
          · by_cases e2 : (k - 1) / 2 = (r - 1) / 2
            · rw [e2, lessAt_congr c s s1 r k ((r - 1) / 2) k h1p (h1o k e hkp)]
              cases hrk : lessAt c s (r : Int) (k : Int) with
              | false => rfl
              | true =>
                have h3 := lessAt_trans c hc s _ _ _ F hrk
                have h4 := H1 k hk hkn e
                rw [e2, h3] at h4
                exact absurd h4 (by decide)
            · by_cases e3 : (k - 1) / 2 = r
              · rw [e3, lessAt_congr c s s1 ((r - 1) / 2) k r k h1r (h1o k e hkp)]
                exact H2 k (by omega) hkn (by omega)
              · rw [lessAt_congr c s s1 ((k - 1) / 2) k ((k - 1) / 2) k
                  (h1o _ e3 e2) (h1o k e hkp)]
                exact H1 k hk hkn e
        · intro k hk hkn hp1
          rw [hlen1] at hkn
          have hpp : lessAt c s (((r - 1) / 2 - 1) / 2 : Nat) ((r - 1) / 2 : Nat) = false :=
            H1 ((r - 1) / 2) hp1 hp (by omega)
          by_cases e : k = r
          · rw [e, lessAt_congr c s s1 (((r - 1) / 2 - 1) / 2) ((r - 1) / 2)
              (((r - 1) / 2 - 1) / 2) r (h1o _ (by omega) (by omega)) h1r]
            exact hpp
          · rw [lessAt_congr c s s1 (((r - 1) / 2 - 1) / 2) k
              (((r - 1) / 2 - 1) / 2) k (h1o _ (by omega) (by omega)) (h1o k e (by omega))]
            refine lessAt_neg_trans c hc s _ _ ((r - 1) / 2) hp hpp ?_
            have h5 := H1 k (by omega) hkn e
            have e4 : (k - 1) / 2 = (r - 1) / 2 := by omega
            rw [e4] at h5
            exact h5
theorem maxHeap_iff_parent (c : Comparator α) (s : List α) :
    MaxHeap c s ↔
      ∀ k : Nat, 1 ≤ k → k < s.length → lessAt c s ((k - 1) / 2 : Nat) k = false := by
  constructor
  · intro h k hk hkn
    rw [← parentIndex_natCast k hk]
    exact h k hkn hk
  · intro h k hkn hk
    rw [parentIndex_natCast k hk]
    exact h k hk hkn

theorem maxHeap_iff_heapOn (c : Comparator α) (s : List α) :
    MaxHeap c s ↔ HeapOn c s (fun _ => True) s.length := by
  rw [maxHeap_iff_parent]
  constructor
  · intro h j k _ hk hkn
    have := h k (by omega) hkn
    have e : (k - 1) / 2 = j := by omega
    rw [e] at this
    exact this
  · intro h k hk hkn
    exact h ((k - 1) / 2) k trivial (by omega) hkn

/-- In a max-heap under a strict weak ordering the root is `Less` than nothing. -/
theorem maxHeap_root_max (c : Comparator α) (hc : StrictWeakOrder c.Less) (s : List α)
    (n : Nat) (hn : n ≤ s.length) (h : HeapOn c s (fun _ => True) n) :
    ∀ i : Nat, i < n → lessAt c s (0 : Nat) i = false := by
  intro i
  induction i using Nat.strong_induction_on with
  | _ i ih =>
    intro hi
    by_cases h0 : i = 0
    · rw [h0]; exact lessAt_irrefl c hc s _
    · have hp := ih ((i - 1) / 2) (by omega) (by omega)
      exact lessAt_neg_trans c hc s _ _ ((i - 1) / 2) (by omega) hp
        (h ((i - 1) / 2) i trivial (by omega) hi)

/-- The loop of `Heapify` never faults and only permutes the sequence. -/
theorem heapifyLoop_struct (c : Comparator α) (n : Nat) :
    ∀ (m : Nat) (s : List α), n ≤ s.length →
      ∃ t, heapifyLoop c ((n : Int) - 1) m s = some t ∧ t.length = s.length ∧ t.Perm s := by
  intro m
  induction m with
  | zero => intro s _; exact ⟨s, rfl, rfl, List.Perm.refl _⟩
  | succ m ih =>
    intro s hn
    obtain ⟨s1, hs1, hlen1, hperm1, _, _⟩ :=
      siftDown_struct c s m n (fun _ => True) (fun _ _ => ⟨trivial, trivial⟩) hn trivial
    obtain ⟨t, ht, hlen, hperm⟩ := ih s1 (by omega)
    refine ⟨t, ?_, by omega, hperm.trans hperm1⟩
    simp only [heapifyLoop, Option.bind_eq_bind, hs1, Option.some_bind, ht]

/-- The loop of `Heapify` extends the heap condition from the nodes `≥ m` to all
nodes. -/
theorem heapifyLoop_heap (c : Comparator α) (hc : StrictWeakOrder c.Less) (n : Nat) :
    ∀ (m : Nat) (s : List α), n ≤ s.length → HeapOn c s (fun j => m ≤ j) n →
      ∀ t, heapifyLoop c ((n : Int) - 1) m s = some t → HeapOn c t (fun _ => True) n := by
  intro m
  induction m with
  | zero =>
    intro s _ h t ht
    cases ht
    intro j k _ hk hkn
    exact h j k (Nat.zero_le _) hk hkn
  | succ m ih =>
    intro s hn h t ht
    obtain ⟨s1, hs1, hlen1, _, _, _⟩ :=
      siftDown_struct c s m n (fun _ => True) (fun _ _ => ⟨trivial, trivial⟩) hn trivial
    simp only [heapifyLoop, Option.bind_eq_bind, hs1, Option.some_bind] at ht
    refine ih s1 (by omega) ?_ t ht
    refine siftDown_heap c hc s m n (fun j => m ≤ j) (fun j hj => ⟨by omega, by omega⟩)
      hn (le_refl m) ?_ ?_ s1 hs1
    · intro j k hj hjm hk hkn
      exact h j k (by omega) hk hkn
    · intro p k hp hmp _ _
      omega

/-- The function `Heapify` never faults, and its slice is a permutation of the input. -/
theorem Heapify_struct (x : List α) (c : Comparator α) :
    ∃ h, Heapify x c = some h ∧ h.comp = c ∧ h.Slice.length = x.length ∧
      h.Slice.Perm x := by
  obtain ⟨t, ht, hlen, hperm⟩ :=
    heapifyLoop_struct c x.length (parentIndex ((x.length : Int) - 1) + 1).toNat x (le_refl _)
  exact ⟨⟨c, t⟩, by simp only [Heapify, Option.bind_eq_bind, ht, Option.some_bind,
    Option.pure_def], rfl, hlen, hperm⟩

/-- Under a strict weak ordering the slice built by `Heapify` is a max-heap. -/
theorem Heapify_heap (x : List α) (c : Comparator α) (hc : StrictWeakOrder c.Less)
    (h : Heap α) (hh : Heapify x c = some h) : MaxHeap c h.Slice := by
  obtain ⟨t, ht, hlen, _⟩ :=
    heapifyLoop_struct c x.length (parentIndex ((x.length : Int) - 1) + 1).toNat x (le_refl _)
  simp only [Heapify, Option.bind_eq_bind, ht, Option.some_bind, Option.pure_def,
    Option.some.injEq] at hh
  subst hh
  rw [maxHeap_iff_heapOn]
  show HeapOn c t (fun _ => True) t.length
  rw [hlen]
  refine heapifyLoop_heap c hc x.length _ x (le_refl _) ?_ t ht
  intro j k hj hk hkn
  rw [parentIndex_eq] at hj
  omega
/-- The function `Pop` on an empty slice returns `nil` and changes nothing. -/
theorem Pop_nil (h : Heap α) (hs : h.Slice = []) : h.Pop = some (none, h) := by
  simp [Heap.Pop, hs]

/-- The function `Pop` on a non-empty slice never faults: it returns the first element and
leaves a permutation of the others, which is a max-heap when the slice was one
(under a strict weak ordering). -/
theorem Pop_cons (h : Heap α) (x : α) (rest : List α) (hs : h.Slice = x :: rest) :
    ∃ t, h.Pop = some (some x, { h with Slice := t }) ∧ t.Perm rest ∧
      (StrictWeakOrder h.comp.Less → MaxHeap h.comp h.Slice → MaxHeap h.comp t) := by
  cases rest with
  | nil =>
    refine ⟨[], by simp [Heap.Pop, hs, index], List.Perm.refl _, ?_⟩
    intro _ _ k hk
    simp at hk
  | cons y r =>
    have hlen : h.Slice.length = r.length + 2 := by rw [hs]; simp
    have hx : h.Slice[0]? = some x := by rw [hs]; simp
    obtain ⟨s1, hs1, hlen1, hperm1, h10, h1e, h1o⟩ :=
      swapItems_spec h.Slice 0 (r.length + 1) (by omega) (by omega)
    have e1 : ((h.Slice.length : Int) - 1) = ((r.length + 1 : Nat) : Int) := by omega
    have hsl : sliceTo s1 ((r.length + 1 : Nat) : Int) = some (s1.take (r.length + 1)) := by
      have : ((r.length + 1 : Nat) : Int) ≤ (s1.length : Int) := by omega
      simp only [sliceTo, this, Int.toNat_ofNat, and_true, Nat.cast_nonneg, if_true]
    have hlen2 : (s1.take (r.length + 1)).length = r.length + 1 := by
      rw [List.length_take]; omega
    obtain ⟨t, ht, hlent, hpermt, _, _⟩ :=
      siftDown_struct h.comp (s1.take (r.length + 1)) 0 (s1.take (r.length + 1)).length
        (fun _ => True) (fun _ _ => ⟨trivial, trivial⟩) (le_refl _) trivial
    simp only [Nat.cast_zero] at hs1 ht
    refine ⟨t, ?_, ?_, ?_⟩
    · unfold Heap.Pop
      rw [if_neg (by omega)]
      simp only [e1, index_zero, hx, Option.bind_eq_bind, Option.some_bind, hs1, hsl, ht,
        Option.pure_def]
      rw [if_neg (by omega)]
    · have hd : s1.drop (r.length + 1) = [x] := by
        rw [List.drop_eq_getElem_cons (by omega), List.drop_of_length_le (by omega)]
        have := h1e
        rw [hx, List.getElem?_eq_getElem (by omega)] at this
        simpa using this
      have h1 : (x :: s1.take (r.length + 1)).Perm (x :: y :: r) := by
        refine (List.perm_append_singleton x _).symm.trans ?_
        rw [← hd, List.take_append_drop, ← hs]
        exact hperm1
      exact hpermt.trans h1.cons_inv
    · intro hc hheap
      rw [maxHeap_iff_heapOn] at hheap ⊢
      show HeapOn h.comp t (fun _ => True) t.length
      rw [hlent]
      refine siftDown_heap h.comp hc (s1.take (r.length + 1)) 0 _ (fun _ => True)
        (fun _ _ => ⟨trivial, trivial⟩) (le_refl _) trivial ?_ ?_ t
        (by simpa only [Nat.cast_zero] using ht)
      · intro j k _ hj hk hkn
        rw [hlen2] at hkn
        rw [lessAt_congr h.comp h.Slice _ j k j k
          (by rw [List.getElem?_take_of_lt (by omega), h1o j hj (by omega)])
          (by rw [List.getElem?_take_of_lt (by omega), h1o k (by omega) (by omega)])]
        exact hheap j k trivial hk (by omega)
      · intro p k _ hp _ _
        omega
/-- The loop of `Sort` never faults and only permutes the sequence, leaving the
positions at and above the counter untouched. -/
theorem sortLoop_struct (c : Comparator α) :
    ∀ (m : Nat) (s : List α), m ≤ s.length →
      ∃ t, sortLoop c m s = some t ∧ t.length = s.length ∧ t.Perm s ∧
        (∀ k, m ≤ k → t[k]? = s[k]?) := by
  intro m
  induction m with
  | zero => intro s _; exact ⟨s, rfl, rfl, List.Perm.refl _, fun _ _ => rfl⟩
  | succ e ih =>
    intro s hm
    obtain ⟨s1, hs1, hlen1, hperm1, _, _, h1o⟩ := swapItems_spec s 0 e (by omega) (by omega)
    obtain ⟨s2, hs2, hlen2, hperm2, hframe2, _⟩ :=
      siftDown_struct c s1 0 e (fun _ => True) (fun _ _ => ⟨trivial, trivial⟩)
        (by omega) trivial
    obtain ⟨t, ht, hlen, hperm, hframe⟩ := ih s2 (by omega)
    simp only [Nat.cast_zero] at hs1 hs2
    refine ⟨t, ?_, by omega, hperm.trans (hperm2.trans hperm1), ?_⟩
    · simp only [sortLoop, Option.bind_eq_bind, hs1, Option.some_bind, hs2, ht]
    · intro k hk
      rw [hframe k (by omega), hframe2 k (Or.inl (by omega)), h1o k (by omega) (by omega)]

/-- The loop of `Sort` with counter `m`: if the first `m` positions form a max-heap,
the positions from `m` on are ascending and none of them is `Less` than one of the
first `m`, then the result is ascending. -/
theorem sortLoop_sorted (c : Comparator α) (hc : StrictWeakOrder c.Less) :
    ∀ (m : Nat) (s : List α), m ≤ s.length →
      HeapOn c s (fun _ => True) m →
      (∀ i j : Nat, m ≤ i → i < j → j < s.length → lessAt c s j i = false) →
      (∀ i j : Nat, i < m → m ≤ j → j < s.length → lessAt c s j i = false) →
      ∀ t, sortLoop c m s = some t → Ascending c t := by
  intro m
  induction m with
  | zero =>
    intro s _ _ I2 _ t ht
    cases ht
    intro j hj i hi
    exact I2 i j (Nat.zero_le _) hi hj
  | succ e ih =>
    intro s hm I1 I2 I3 t ht
    obtain ⟨s1, hs1, hlen1, _, h10, h1e, h1o⟩ :=
      swapItems_spec s 0 e (by omega) (by omega)
    obtain ⟨s2, hs2, hlen2, _, hframe2, hin2⟩ :=
      siftDown_struct c s1 0 e (fun _ => True) (fun _ _ => ⟨trivial, trivial⟩)
        (by omega) trivial
    have hheap2 : HeapOn c s2 (fun _ => True) e := by
      refine siftDown_heap c hc s1 0 e (fun _ => True) (fun _ _ => ⟨trivial, trivial⟩)
        (by omega) trivial ?_ ?_ s2 hs2
      · intro j k _ hj hk hkn
        rw [lessAt_congr c s s1 j k j k (h1o j hj (by omega)) (h1o k (by omega) (by omega))]
        exact I1 j k trivial hk (by omega)
      · intro p k _ hp _ _
        omega
    simp only [Nat.cast_zero] at hs1 hs2
    simp only [sortLoop, Option.bind_eq_bind, hs1, Option.some_bind, hs2] at ht
    have hroot := maxHeap_root_max c hc s (e + 1) hm I1
    -- every position of `s1` below `e` holds an element of the first `e + 1` of `s`
    have hfrom : ∀ i', i' < e → ∃ i2, i2 < e + 1 ∧ s1[i']? = s[i2]? := by
      intro i' hi'
      by_cases h0 : i' = 0
      · exact ⟨e, by omega, by rw [h0, h10]⟩
      · exact ⟨i', by omega, h1o i' h0 (by omega)⟩
    refine ih s2 (by omega) hheap2 ?_ ?_ t ht
    · intro i j hi hij hj
      rw [hlen2, hlen1] at hj
      by_cases hie : i = e
      · rw [lessAt_congr c s s2 j 0 j i
          (by rw [hframe2 j (Or.inl (by omega)), h1o j (by omega) (by omega)])
          (by rw [hframe2 i (Or.inl (by omega)), hie, h1e])]
        exact I3 0 j (by omega) (by omega) hj
      · rw [lessAt_congr c s s2 j i j i
          (by rw [hframe2 j (Or.inl (by omega)), h1o j (by omega) (by omega)])
          (by rw [hframe2 i (Or.inl (by omega)), h1o i (by omega) (by omega)])]
        exact I2 i j (by omega) hij hj
    · intro i j hi hj hjn
      rw [hlen2, hlen1] at hjn
      obtain ⟨i', hi', ei⟩ := hin2 i hi
      obtain ⟨i2, hi2, ei'⟩ := hfrom i' hi'
      by_cases hje : j = e
      · rw [lessAt_congr c s s2 0 i2 j i
          (by rw [hframe2 j (Or.inl (by omega)), hje, h1e])
          (by rw [ei, ei'])]
        exact hroot i2 hi2
      · rw [lessAt_congr c s s2 j i2 j i
          (by rw [hframe2 j (Or.inl (by omega)), h1o j (by omega) (by omega)])
          (by rw [ei, ei'])]
        exact I3 i2 j hi2 (by omega) hjn

/-- The function `Sort` never faults and permutes the slice, whatever it holds. -/
theorem Sort_struct (h : Heap α) :
    ∃ t, h.Sort = some { h with Slice := t } ∧ t.length = h.Slice.length ∧
      t.Perm h.Slice := by
  obtain ⟨t, ht, hlen, hperm, _⟩ := sortLoop_struct h.comp h.Slice.length h.Slice (le_refl _)
  exact ⟨t, by simp only [Heap.Sort, Option.bind_eq_bind, ht, Option.some_bind,
    Option.pure_def], hlen, hperm⟩

/-- The function `Sort` on a max-heap under a strict weak ordering leaves the slice ascending. -/
theorem Sort_sorted (h : Heap α) (hc : StrictWeakOrder h.comp.Less)
    (hh : MaxHeap h.comp h.Slice) (h' : Heap α) (hs : h.Sort = some h') :
    Ascending h.comp h'.Slice := by
  obtain ⟨t, ht, _⟩ := sortLoop_struct h.comp h.Slice.length h.Slice (le_refl _)
  simp only [Heap.Sort, Option.bind_eq_bind, ht, Option.some_bind, Option.pure_def,
    Option.some.injEq] at hs
  subst hs
  refine sortLoop_sorted h.comp hc h.Slice.length h.Slice (le_refl _)
    ((maxHeap_iff_heapOn _ _).1 hh) ?_ ?_ t ht
  · intro i j hi hij hj
    omega
  · intro i j hi hj hjn
    omega
/-- The function `siftUp` from a valid index never faults and only permutes the sequence. -/
theorem siftUp_struct (c : Comparator α) (s : List α) (r : Nat) (hr : r < s.length) :
    ∃ t, siftUp c s r = some t ∧ t.length = s.length ∧ t.Perm s ∧
      (∀ k, r < k → t[k]? = s[k]?) :=
  siftUpLoop_struct c _ s r hr (by simp)

theorem siftUp_heap (c : Comparator α) (hc : StrictWeakOrder c.Less) (s : List α) (r : Nat)
    (hr : r < s.length)
    (H1 : ∀ k : Nat, 1 ≤ k → k < s.length → k ≠ r →
      lessAt c s ((k - 1) / 2 : Nat) k = false)
    (H2 : ∀ k : Nat, (k = 2 * r + 1 ∨ k = 2 * r + 2) → k < s.length → 1 ≤ r →
      lessAt c s ((r - 1) / 2 : Nat) k = false)
    (t : List α) (ht : siftUp c s r = some t) : MaxHeap c t := by
  rw [maxHeap_iff_parent]
  exact siftUpLoop_heap c hc _ s r hr (by simp) H1 H2 t ht

/-- The function `Push` never faults: the new slice is a permutation of the old one with the
value appended, and is a max-heap when the old one was (strict weak ordering). -/
theorem Push_spec (h : Heap α) (v : α) :
    ∃ t, h.Push v = some { h with Slice := t } ∧ t.Perm (h.Slice ++ [v]) ∧
      (StrictWeakOrder h.comp.Less → MaxHeap h.comp h.Slice → MaxHeap h.comp t) := by
  have e : (((h.Slice ++ [v]).length : Int) - 1) = ((h.Slice.length : Nat) : Int) := by
    simp
  obtain ⟨t, ht, _, hperm, _⟩ :=
    siftUp_struct h.comp (h.Slice ++ [v]) h.Slice.length (by simp)
  refine ⟨t, ?_, hperm, ?_⟩
  · simp only [Heap.Push, e, Option.bind_eq_bind, ht, Option.some_bind, Option.pure_def]
  · intro hc hh
    rw [maxHeap_iff_parent] at hh
    refine siftUp_heap h.comp hc (h.Slice ++ [v]) h.Slice.length (by simp) ?_ ?_ t ht
    · intro k hk hkn hkr
      have hkn' : k < h.Slice.length := by
        rw [List.length_append, List.length_singleton] at hkn; omega
      rw [lessAt_congr h.comp h.Slice _ ((k - 1) / 2) k ((k - 1) / 2) k
        (List.getElem?_append_left (by omega)) (List.getElem?_append_left hkn')]
      exact hh k hk hkn'
    · intro k hk hkn _
      rw [List.length_append, List.length_singleton] at hkn
      omega

/-- The function `RepairUp` at a valid index of a max-heap (strict weak ordering) never faults
and leaves a max-heap that is a permutation of the slice. -/
theorem RepairUp_spec (h : Heap α) (hc : StrictWeakOrder h.comp.Less)
    (hh : MaxHeap h.comp h.Slice) (i : Int) (hi0 : 0 ≤ i) (hi : i < h.Slice.length) :
    ∃ t, h.RepairUp i = some { h with Slice := t } ∧ t.Perm h.Slice ∧ MaxHeap h.comp t := by
  obtain ⟨r, rfl⟩ := Int.eq_ofNat_of_zero_le hi0
  have hr : r < h.Slice.length := by omega
  obtain ⟨t, ht, _, hperm, _⟩ := siftUp_struct h.comp h.Slice r hr
  rw [maxHeap_iff_parent] at hh
  refine ⟨t, ?_, hperm, ?_⟩
  · simp only [Heap.RepairUp, Option.bind_eq_bind, ht, Option.some_bind, Option.pure_def]
  · refine siftUp_heap h.comp hc h.Slice r hr (fun k hk hkn _ => hh k hk hkn) ?_ t ht
    intro k hk hkn hr1
    refine lessAt_neg_trans h.comp hc h.Slice _ _ r hr (hh r hr1 hr) ?_
    have := hh k (by omega) hkn
    have e : (k - 1) / 2 = r := by omega
    rw [e] at this
    exact this

/-- The function `RepairDown` at a valid index of a max-heap (strict weak ordering) never
faults and leaves a max-heap that is a permutation of the slice. -/
theorem RepairDown_spec (h : Heap α) (hc : StrictWeakOrder h.comp.Less)
    (hh : MaxHeap h.comp h.Slice) (i : Int) (hi0 : 0 ≤ i) (hi : i < h.Slice.length) :
    ∃ t, h.RepairDown i = some { h with Slice := t } ∧ t.Perm h.Slice ∧
      MaxHeap h.comp t := by
  obtain ⟨r, rfl⟩ := Int.eq_ofNat_of_zero_le hi0
  obtain ⟨t, ht, hlen, hperm, _⟩ :=
    siftDown_struct h.comp h.Slice r h.Slice.length (fun _ => True)
      (fun _ _ => ⟨trivial, trivial⟩) (le_refl _) trivial
  have hh' := (maxHeap_iff_heapOn _ _).1 hh
  refine ⟨t, ?_, hperm, ?_⟩
  · simp only [Heap.RepairDown, Option.bind_eq_bind, ht, Option.some_bind, Option.pure_def]
  · rw [maxHeap_iff_heapOn, hlen]
    refine siftDown_heap h.comp hc h.Slice r h.Slice.length (fun _ => True)
      (fun _ _ => ⟨trivial, trivial⟩) (le_refl _) trivial
      (fun j k _ _ hk hkn => hh' j k trivial hk hkn) ?_ t ht
    intro p k _ hp hk hkn
    exact lessAt_neg_trans h.comp hc h.Slice _ _ r (by omega)
      (hh' p r trivial hp (by omega)) (hh' r k trivial hk hkn)
theorem StrictTotalOrder.toWeak {less : α → α → Bool} (h : StrictTotalOrder less) :
    StrictWeakOrder less where
  irrefl := h.irrefl
  trans := h.trans
  incomp_trans := by
    intro a b c hab hba hbc hcb
    have e1 := h.total a b hab hba
    have e2 := h.total b c hbc hcb
    subst e1
    subst e2
    exact ⟨h.irrefl _, h.irrefl _⟩

theorem intCmp_strictTotal : StrictTotalOrder intCmp.Less where
  irrefl := by intro a; simp [intCmp]
  trans := by intro a b c; simp only [intCmp, decide_eq_true_eq]; omega
  total := by intro a b; simp only [intCmp, decide_eq_false_iff_not]; omega

theorem intCmp_strictWeak : StrictWeakOrder intCmp.Less :=
  intCmp_strictTotal.toWeak

/-- In a max-heap under a strict weak ordering the first element is `Less` than no
element. -/
theorem maxHeap_head_max (c : Comparator α) (hc : StrictWeakOrder c.Less) (x : α)
    (rest : List α) (hh : MaxHeap c (x :: rest)) :
    ∀ y ∈ x :: rest, c.Less x y = false := by
  intro y hy
  obtain ⟨i, hi⟩ := List.mem_iff_getElem?.1 hy
  have hlt : i < (x :: rest).length := by
    by_contra hcon
    rw [List.getElem?_eq_none (by omega)] at hi
    cases hi
  have := maxHeap_root_max c hc (x :: rest) _ (le_refl _) ((maxHeap_iff_heapOn _ _).1 hh) i hlt
  rw [lessAt_natCast c (x :: rest) 0 i x y (by simp) hi] at this
  exact this

theorem ascending_pairwise (c : Comparator α) (s : List α) (h : Ascending c s) :
    s.Pairwise (fun a b => c.Less b a = false) := by
  rw [List.pairwise_iff_getElem]
  intro i j hi hj hij
  have := h j hj i hij
  rw [lessAt_natCast c s j i s[j] s[i] (List.getElem?_eq_getElem hj)
    (List.getElem?_eq_getElem hi)] at this
  exact this

/-- One valid operation on a max-heap never faults and leaves a max-heap. -/
theorem apply_spec (c : Comparator α) (hc : StrictWeakOrder c.Less) (h : Heap α)
    (hcomp : h.comp = c) (hh : MaxHeap c h.Slice) (op : Op α) (hv : op.valid h) :
    ∃ h', h.apply op = some h' ∧ h'.comp = c ∧ MaxHeap c h'.Slice := by
  subst hcomp
  cases op with
  | push v =>
    obtain ⟨t, ht, _, hheap⟩ := Push_spec h v
    exact ⟨_, ht, rfl, hheap hc hh⟩
  | pop =>
    cases hs : h.Slice with
    | nil =>
      refine ⟨h, ?_, rfl, hh⟩
      simp only [Heap.apply, Pop_nil h hs, Option.map_some']
    | cons x rest =>
      obtain ⟨t, ht, _, hheap⟩ := Pop_cons h x rest hs
      refine ⟨{ h with Slice := t }, ?_, rfl, hheap hc hh⟩
      simp only [Heap.apply, ht, Option.map_some']
  | repairUp i =>
    obtain ⟨t, ht, _, hheap⟩ := RepairUp_spec h hc hh i hv.1 hv.2
    exact ⟨_, ht, rfl, hheap⟩
  | repairDown i =>
    obtain ⟨t, ht, _, hheap⟩ := RepairDown_spec h hc hh i hv.1 hv.2
    exact ⟨_, ht, rfl, hheap⟩

theorem reachable_heap (c : Comparator α) (hc : StrictWeakOrder c.Less) (h : Heap α)
    (hr : Reachable c h) : h.comp = c ∧ MaxHeap c h.Slice := by
  induction hr with
  | new =>
    refine ⟨rfl, ?_⟩
    intro k hk
    simp [NewHeap] at hk
  | heapify x h hx =>
    obtain ⟨h0, h1, h2, _⟩ := Heapify_struct x c
    rw [hx] at h1
    cases h1
    exact ⟨h2, Heapify_heap x c hc h hx⟩
  | step h op h' _ hv hap ih =>
    obtain ⟨h1, e1, e2, e3⟩ := apply_spec c hc h ih.1 ih.2 op hv
    rw [hap] at e1
    cases e1
    exact ⟨e2, e3⟩

/-- Popping `n` times from a max-heap of `n` elements (strict weak ordering) never
faults, empties the heap and returns its elements, none `Less` than a later one. -/
theorem popN_spec (c : Comparator α) (hc : StrictWeakOrder c.Less) :
    ∀ (n : Nat) (s : List α), s.length = n → MaxHeap c s →
      ∃ ps : List α, popN n ⟨c, s⟩ = some (ps.map some, ⟨c, []⟩) ∧ ps.Perm s ∧
        ps.Pairwise (fun a b => c.Less a b = false) := by
  intro n
  induction n with
  | zero =>
    intro s hs _
    have : s = [] := List.length_eq_zero.1 hs
    subst this
    exact ⟨[], rfl, List.Perm.refl _, List.Pairwise.nil⟩
  | succ n ih =>
    intro s hs hh
    cases s with
    | nil => simp at hs
    | cons x rest =>
      obtain ⟨t, ht, hperm, hheap⟩ := Pop_cons ⟨c, x :: rest⟩ x rest rfl
      have hlen : t.length = n := by
        rw [hperm.length_eq]; simpa using hs
      obtain ⟨ps, hps, hpperm, hpw⟩ := ih t hlen (hheap hc hh)
      refine ⟨x :: ps, ?_, (hpperm.trans hperm).cons x, ?_⟩
      · simp only [popN, ht, Option.bind_eq_bind, Option.some_bind, hps, Option.pure_def,
          List.map_cons]
      · refine List.Pairwise.cons ?_ hpw
        intro y hy
        exact maxHeap_head_max c hc x rest hh y
          (List.mem_cons_of_mem _ ((hpperm.trans hperm).mem_iff.1 hy))
theorem getElem?_set_same (s : List α) (r : Nat) (v : α) (hr : r < s.length) :
    (s.set r v)[r]? = some v := by
  simp [List.getElem?_set, hr]

theorem getElem?_set_other (s : List α) (r k : Nat) (v : α) (hk : k ≠ r) :
    (s.set r v)[k]? = s[k]? := by
  simp [List.getElem?_set, Ne.symm hk]

theorem setAt_natCast (s : List α) (r : Nat) (v : α) (hr : r < s.length) :
    setAt s (r : Int) v = some (s.set r v) := by
  have : (r : Int) < (s.length : Int) := by omega
  simp [setAt, this]

theorem lessAt_set_ne (c : Comparator α) (s : List α) (r j k : Nat) (v : α)
    (hj : j ≠ r) (hk : k ≠ r) : lessAt c (s.set r v) j k = lessAt c s j k :=
  lessAt_congr c s _ j k j k (getElem?_set_other s r j v hj) (getElem?_set_other s r k v hk)

/-- Replacing the element at `r` by a value that is not `Less` than it, then
`siftUp` from `r`: the result is a max-heap and a permutation. -/
theorem siftUp_after_increase (c : Comparator α) (hc : StrictWeakOrder c.Less) (s : List α)
    (hh : MaxHeap c s) (r : Nat) (x v : α) (hx : s[r]? = some x)
    (hv : c.Less v x = false) :
    ∃ t, siftUp c (s.set r v) r = some t ∧ t.Perm (s.set r v) ∧ MaxHeap c t := by
  have hr : r < s.length := by
    by_contra hcon
    rw [List.getElem?_eq_none (by omega)] at hx
    cases hx
  have hr1 : r < (s.set r v).length := by simpa using hr
  obtain ⟨t, ht, _, hperm, _⟩ := siftUp_struct c (s.set r v) r hr1
  rw [maxHeap_iff_parent] at hh
  refine ⟨t, ht, hperm, siftUp_heap c hc (s.set r v) r hr1 ?_ ?_ t ht⟩
  · intro k hk hkn hkr
    have hkn' : k < s.length := by simpa using hkn
    by_cases hp : (k - 1) / 2 = r
    · obtain ⟨y, hy⟩ : ∃ y, s[k]? = some y := ⟨_, List.getElem?_eq_getElem hkn'⟩
      have h1 := hh k hk hkn'
      rw [hp, lessAt_natCast c s r k x y hx hy] at h1
      rw [hp, lessAt_natCast c (s.set r v) r k v y (getElem?_set_same s r v hr)
        (by rw [getElem?_set_other s r k v hkr, hy])]
      exact hc.neg_trans v x y hv h1
    · rw [lessAt_set_ne c s r _ k v hp hkr]
      exact hh k hk hkn'
  · intro k hk hkn hr0
    have hkn' : k < s.length := by simpa using hkn
    rw [lessAt_set_ne c s r _ k v (by omega) (by omega)]
    refine lessAt_neg_trans c hc s _ _ r hr (hh r hr0 hr) ?_
    have h1 := hh k (by omega) hkn'
    have e : (k - 1) / 2 = r := by omega
    rw [e] at h1
    exact h1

/-- Replacing the element at `r` by a value it is not `Less` than, then `siftDown`
from `r` over the whole slice: the result is a max-heap and a permutation. -/
theorem siftDown_after_decrease (c : Comparator α) (hc : StrictWeakOrder c.Less)
    (s : List α) (hh : MaxHeap c s) (r : Nat) (x v : α) (hx : s[r]? = some x)
    (hv : c.Less x v = false) :
    ∃ t, siftDown c (s.set r v) r (((s.set r v).length : Int) - 1) = some t ∧
      t.Perm (s.set r v) ∧ MaxHeap c t := by
  have hr : r < s.length := by
    by_contra hcon
    rw [List.getElem?_eq_none (by omega)] at hx
    cases hx
  obtain ⟨t, ht, hlen, hperm, _⟩ :=
    siftDown_struct c (s.set r v) r (s.set r v).length (fun _ => True)
      (fun _ _ => ⟨trivial, trivial⟩) (le_refl _) trivial
  have hh' := (maxHeap_iff_heapOn _ _).1 hh
  refine ⟨t, ht, hperm, ?_⟩
  rw [maxHeap_iff_heapOn, hlen]
  refine siftDown_heap c hc (s.set r v) r _ (fun _ => True)
    (fun _ _ => ⟨trivial, trivial⟩) (le_refl _) trivial ?_ ?_ t ht
  · intro j k _ hj hk hkn
    have hkn' : k < s.length := by simpa using hkn
    by_cases hkr : k = r
    · obtain ⟨y, hy⟩ : ∃ y, s[j]? = some y := ⟨_, List.getElem?_eq_getElem (by omega)⟩
      have h1 := hh' j k trivial hk hkn'
      rw [hkr, lessAt_natCast c s j r y x hy hx] at h1
      rw [hkr, lessAt_natCast c (s.set r v) j r y v
        (by rw [getElem?_set_other s r j v hj, hy]) (getElem?_set_same s r v hr)]
      exact hc.neg_trans y x v h1 hv
    · rw [lessAt_set_ne c s r j k v hj hkr]
      exact hh' j k trivial hk hkn'
  · intro p k _ hp hk hkn
    have hkn' : k < s.length := by simpa using hkn
    rw [lessAt_set_ne c s r p k v (by omega) (by omega)]
    exact lessAt_neg_trans c hc s _ _ r hr (hh' p r trivial hp hr)
      (hh' r k trivial hk hkn')

theorem index_some_natCast (s : List α) (i : Int) (x : α) (hx : index s i = some x) :
    ∃ r : Nat, i = (r : Int) ∧ s[r]? = some x := by
  unfold index at hx
  by_cases h0 : 0 ≤ i
  · rw [if_pos h0] at hx
    exact ⟨i.toNat, by omega, hx⟩
  · rw [if_neg h0] at hx
    cases hx

/-- The `siftDown` loop stops at once when the left child is beyond the boundary. -/
theorem siftDownLoop_stop_int (c : Comparator α) (s : List α) (end_ root : Int) (fuel : Nat)
    (h : end_ < leftChildIndex root) : siftDownLoop c end_ fuel s root = some s := by
  have g : ¬ leftChildIndex root ≤ end_ := by omega
  cases fuel with
  | zero => simp only [siftDownLoop, if_neg g]
  | succ f => rw [siftDownLoop_succ_eq, if_neg g]

/-- The function `siftDown` from a non-negative root with any boundary below the
length (negative ones included) never faults and only permutes positions of `D`
within the boundary. -/
theorem siftDown_struct_int (c : Comparator α) (s : List α) (r : Nat) (end_ : Int)
    (D : Nat → Prop) (hD : ∀ j, D j → D (2 * j + 1) ∧ D (2 * j + 2))
    (he : end_ < s.length) (hr : D r) :
    ∃ t, siftDown c s r end_ = some t ∧ t.length = s.length ∧ t.Perm s ∧
      (∀ k : Nat, (end_ < (k : Int) ∨ ¬ D k) → t[k]? = s[k]?) := by
  by_cases h1 : -1 ≤ end_
  · have e : end_ = (((end_ + 1).toNat : Nat) : Int) - 1 := by omega
    obtain ⟨t, ht, hlen, hperm, hframe, _⟩ :=
      siftDown_struct c s r (end_ + 1).toNat D hD (by omega) hr
    rw [← e] at ht
    refine ⟨t, ht, hlen, hperm, ?_⟩
    intro k hk
    apply hframe
    rcases hk with hk | hk
    · exact Or.inl (by omega)
    · exact Or.inr hk
  · refine ⟨s, ?_, rfl, List.Perm.refl _, fun _ _ => rfl⟩
    unfold siftDown
    exact siftDownLoop_stop_int c s end_ r _ (by rw [leftChildIndex_natCast]; omega)

/-- The function `RepairUp` at a valid index never faults, whatever the slice holds. -/
theorem RepairUp_struct (h : Heap α) (i : Int) (hi0 : 0 ≤ i) (hi : i < h.Slice.length) :
    ∃ t, h.RepairUp i = some { h with Slice := t } ∧ t.Perm h.Slice := by
  obtain ⟨r, rfl⟩ := Int.eq_ofNat_of_zero_le hi0
  obtain ⟨t, ht, _, hperm, _⟩ := siftUp_struct h.comp h.Slice r (by omega)
  exact ⟨t, by simp only [Heap.RepairUp, Option.bind_eq_bind, ht, Option.some_bind,
    Option.pure_def], hperm⟩

/-- The function `RepairDown` at a valid index never faults, whatever the slice
holds. -/
theorem RepairDown_struct (h : Heap α) (i : Int) (hi0 : 0 ≤ i) (hi : i < h.Slice.length) :
    ∃ t, h.RepairDown i = some { h with Slice := t } ∧ t.Perm h.Slice := by
  obtain ⟨r, rfl⟩ := Int.eq_ofNat_of_zero_le hi0
  obtain ⟨t, ht, _, hperm, _⟩ :=
    siftDown_struct h.comp h.Slice r h.Slice.length (fun _ => True)
      (fun _ _ => ⟨trivial, trivial⟩) (le_refl _) trivial
  exact ⟨t, by simp only [Heap.RepairDown, Option.bind_eq_bind, ht, Option.some_bind,
    Option.pure_def], hperm⟩

/-- The function `Pop` never faults. -/
theorem Pop_isSome (h : Heap α) : h.Pop.isSome = true := by
  cases hs : h.Slice with
  | nil => rw [Pop_nil h hs]; rfl
  | cons x rest =>
    obtain ⟨t, ht, _, _⟩ := Pop_cons h x rest hs
    rw [ht]; rfl

theorem lessAt_incomp_trans (c : Comparator α) (hc : StrictWeakOrder c.Less) (s : List α)
    (i k : Int) (j : Nat) (hj : j < s.length)
    (hij : lessAt c s i j = false) (hji : lessAt c s j i = false)
    (hjk : lessAt c s j k = false) (hkj : lessAt c s k j = false) :
    lessAt c s i k = false ∧ lessAt c s k i = false := by
  unfold lessAt at *
  have hj' : index s (j : Int) = some s[j] := by
    rw [index_natCast]; exact List.getElem?_eq_getElem hj
  cases hi : index s i <;> cases hk : index s k <;>
    simp only [hi, hj', hk, and_self] at hij hji hjk hkj ⊢
  exact hc.incomp_trans _ _ _ hij hji hjk hkj

/-- In an ascending max-heap (strict weak ordering) every element is incomparable
with the first one. -/
theorem ascending_heap_incomparable (c : Comparator α) (hc : StrictWeakOrder c.Less)
    (t : List α) (hh : MaxHeap c t) (ha : Ascending c t) :
    ∀ i : Nat, i < t.length →
      lessAt c t (0 : Nat) i = false ∧ lessAt c t i (0 : Nat) = false := by
  rw [maxHeap_iff_parent] at hh
  intro i
  induction i using Nat.strong_induction_on with
  | _ i ih =>
    intro hi
    by_cases h0 : i = 0
    · rw [h0]; exact ⟨lessAt_irrefl c hc t _, lessAt_irrefl c hc t _⟩
    · obtain ⟨h1, h2⟩ := ih ((i - 1) / 2) (by omega) (by omega)
      exact lessAt_incomp_trans c hc t _ _ ((i - 1) / 2) (by omega) h1 h2
        (hh i (by omega) hi) (ha i hi ((i - 1) / 2) (by omega))

/-- An ascending max-heap (strict weak ordering) holds no two elements one of which
is `Less` than the other. -/
theorem ascending_heap_no_less (c : Comparator α) (hc : StrictWeakOrder c.Less)
    (t : List α) (hh : MaxHeap c t) (ha : Ascending c t) (a b : α) (hma : a ∈ t)
    (hmb : b ∈ t) : c.Less a b = false := by
  obtain ⟨ia, hia⟩ := List.mem_iff_getElem?.1 hma
  obtain ⟨ib, hib⟩ := List.mem_iff_getElem?.1 hmb
  have hla : ia < t.length := by
    by_contra hcon
    rw [List.getElem?_eq_none (by omega)] at hia
    cases hia
  have hlb : ib < t.length := by
    by_contra hcon
    rw [List.getElem?_eq_none (by omega)] at hib
    cases hib
  obtain ⟨a1, a2⟩ := ascending_heap_incomparable c hc t hh ha ia hla
  obtain ⟨b1, b2⟩ := ascending_heap_incomparable c hc t hh ha ib hlb
  have := (lessAt_incomp_trans c hc t _ _ 0 (by omega) a2 a1 b1 b2).1
  rw [lessAt_natCast c t ia ib a b hia hib] at this
  exact this

/-- The function `siftUp` leaves the slice as it is when the element at the start is
not above its parent. -/
theorem siftUp_id (c : Comparator α) (s : List α) (r : Nat) (hr : r < s.length)
    (h : 1 ≤ r → lessAt c s ((r - 1) / 2 : Nat) r = false) : siftUp c s r = some s := by
  unfold siftUp
  by_cases h0 : r = 0
  · subst h0
    exact siftUpLoop_stop c s _
  · obtain ⟨f, hf⟩ : ∃ f, (r : Int).toNat = f + 1 := ⟨r - 1, by omega⟩
    rw [hf]
    rcases siftUpLoop_step c s r f hr (by omega) with ⟨_, e⟩ | ⟨a, _⟩
    · exact e
    · rw [h (by omega)] at a
      cases a

theorem InSubtree.le {start j : Nat} (h : InSubtree start j) : start ≤ j := by
  induction h with
  | root => exact le_refl _
  | left j _ ih => omega
  | right j _ ih => omega

theorem InSubtree.children {start j : Nat} (h : InSubtree start j) :
    InSubtree start (2 * j + 1) ∧ InSubtree start (2 * j + 2) :=
  ⟨InSubtree.left j h, InSubtree.right j h⟩

/-- The `siftDown` loop moves the elements along a permutation of the positions that
fixes every position beyond the boundary and every position outside `D`. -/
theorem siftDownLoop_equiv (c : Comparator α) (n : Nat) (D : Nat → Prop)
    (hD : ∀ j, D j → D (2 * j + 1) ∧ D (2 * j + 2)) :
    ∀ (fuel : Nat) (s : List α) (r : Nat), n ≤ s.length → D r →
      ∀ t, siftDownLoop c ((n : Int) - 1) fuel s r = some t →
        ∃ σ : Equiv.Perm Nat, (∀ k, (n ≤ k ∨ ¬ D k) → σ k = k) ∧
          ∀ k, t[k]? = s[σ k]? := by
  intro fuel
  induction fuel with
  | zero =>
    intro s r hn hDr t ht
    by_cases hr : n ≤ 2 * r + 1
    · rw [siftDownLoop_stop c s n r 0 hr] at ht
      cases ht
      exact ⟨Equiv.refl _, fun _ _ => rfl, fun _ => rfl⟩
    · have g : leftChildIndex (r : Int) ≤ (n : Int) - 1 := by
        rw [leftChildIndex_natCast]; omega
      simp only [siftDownLoop, if_pos g] at ht
      cases ht
  | succ f ih =>
    intro s r hn hDr t ht
    by_cases hr : n ≤ 2 * r + 1
    · rw [siftDownLoop_stop c s n r _ hr] at ht
      cases ht
      exact ⟨Equiv.refl _, fun _ _ => rfl, fun _ => rfl⟩
    · have descend : ∀ ch : Nat, (ch = 2 * r + 1 ∨ ch = 2 * r + 2) → ch < n →
          siftDownLoop c ((n : Int) - 1) (f + 1) s r =
            (swapItems s r ch).bind (fun t => siftDownLoop c ((n : Int) - 1) f t ch) →
          ∃ σ : Equiv.Perm Nat, (∀ k, (n ≤ k ∨ ¬ D k) → σ k = k) ∧
            ∀ k, t[k]? = s[σ k]? := by
        intro ch hch hchn heq
        obtain ⟨s1, hs1, hlen1, _, h1r, h1c, h1o⟩ :=
          swapItems_spec s r ch (by omega) (by omega)
        have hDch : D ch := by
          rcases hch with h | h
          · rw [h]; exact (hD r hDr).1
          · rw [h]; exact (hD r hDr).2
        rw [heq, hs1, Option.some_bind] at ht
        obtain ⟨σ, hfix, hmove⟩ := ih s1 ch (by omega) hDch t ht
        have hswap : ∀ j, s1[j]? = s[Equiv.swap r ch j]? := by
          intro j
          by_cases e1 : j = r
          · rw [e1, Equiv.swap_apply_left, h1r]
          · by_cases e2 : j = ch
            · rw [e2, Equiv.swap_apply_right, h1c]
            · rw [Equiv.swap_apply_of_ne_of_ne e1 e2, h1o j e1 e2]
        refine ⟨σ.trans (Equiv.swap r ch), ?_, ?_⟩
        · intro k hk
          have hkr : k ≠ r := by
            rintro rfl
            rcases hk with hk | hk
            · omega
            · exact hk hDr
          have hkc : k ≠ ch := by
            rintro rfl
            rcases hk with hk | hk
            · omega
            · exact hk hDch
          rw [Equiv.trans_apply, hfix k hk, Equiv.swap_apply_of_ne_of_ne hkr hkc]
        · intro k
          rw [hmove k, hswap, Equiv.trans_apply]
      rcases siftDownLoop_step c s n r f hn (by omega) with ⟨_, _, h⟩ | ⟨_, _, h⟩ | ⟨h2, _, h⟩
      · rw [h] at ht
        cases ht
        exact ⟨Equiv.refl _, fun _ _ => rfl, fun _ => rfl⟩
      · exact descend (2 * r + 1) (Or.inl rfl) (by omega) h
      · exact descend (2 * r + 2) (Or.inr rfl) h2 h

/-- The function `siftDown` from a non-negative root with any boundary below the
length moves the elements along a permutation of the positions that fixes every
position beyond the boundary and every position outside `D`. -/
theorem siftDown_equiv_int (c : Comparator α) (s : List α) (r : Nat) (end_ : Int)
    (D : Nat → Prop) (hD : ∀ j, D j → D (2 * j + 1) ∧ D (2 * j + 2))
    (he : end_ < s.length) (hr : D r) (t : List α) (ht : siftDown c s r end_ = some t) :
    ∃ σ : Equiv.Perm Nat, (∀ k : Nat, (end_ < (k : Int) ∨ ¬ D k) → σ k = k) ∧
      ∀ k, t[k]? = s[σ k]? := by
  by_cases h1 : -1 ≤ end_
  · have e : end_ = (((end_ + 1).toNat : Nat) : Int) - 1 := by omega
    unfold siftDown at ht
    rw [e] at ht
    obtain ⟨σ, hfix, hmove⟩ :=
      siftDownLoop_equiv c (end_ + 1).toNat D hD _ s r (by omega) hr t ht
    refine ⟨σ, ?_, hmove⟩
    intro k hk
    apply hfix
    rcases hk with hk | hk
    · exact Or.inl (by omega)
    · exact Or.inr hk
  · unfold siftDown at ht
    rw [siftDownLoop_stop_int c s end_ r _ (by rw [leftChildIndex_natCast]; omega)] at ht
    cases ht
    exact ⟨Equiv.refl _, fun _ _ => rfl, fun _ => rfl⟩

/-- The function `siftDown` leaves the slice as it is when the root is `Less` than
none of its children within the boundary. -/
theorem siftDown_id_int (c : Comparator α) (s : List α) (r : Nat) (end_ : Int)
    (he : end_ < s.length)
    (h1 : ((2 * r + 1 : Nat) : Int) ≤ end_ → lessAt c s r (2 * r + 1 : Nat) = false)
    (h2 : ((2 * r + 2 : Nat) : Int) ≤ end_ → lessAt c s r (2 * r + 2 : Nat) = false) :
    siftDown c s r end_ = some s := by
  unfold siftDown
  by_cases g : ((2 * r + 1 : Nat) : Int) ≤ end_
  · have e : end_ = (((end_ + 1).toNat : Nat) : Int) - 1 := by omega
    obtain ⟨f, hf⟩ : ∃ f, (end_ - (r : Int)).toNat = f + 1 :=
      ⟨(end_ - (r : Int)).toNat - 1, by omega⟩
    rw [hf]
    have h1' := h1 g
    rcases siftDownLoop_step c s (end_ + 1).toNat r f (by omega) (by omega) with
      ⟨_, _, h⟩ | ⟨a, _, _⟩ | ⟨hlt, ab, _⟩
    · rw [← e] at h
      exact h
    · rw [h1'] at a
      cases a
    · rcases ab with ⟨a, _⟩ | ⟨_, b⟩
      · rw [h1'] at a
        cases a
      · rw [h2 (by omega)] at b
        cases b
  · exact siftDownLoop_stop_int c s end_ r _ (by rw [leftChildIndex_natCast]; omega)

theorem wrapInt_eq (x : Int) (h1 : -9223372036854775808 ≤ x) (h2 : x < 9223372036854775808) :
    wrapInt x = x := by
  unfold wrapInt
  omega

theorem leftChildIndex64_eq (p : Int) (h0 : 0 ≤ p) (hp : p < 4611686018427387904) :
    leftChildIndex64 p = leftChildIndex p := by
  unfold leftChildIndex64 leftChildIndex wrapInt
  omega

theorem siftDownLoop64_succ_eq (c : Comparator α) (end_ : Int) (fuel : Nat) (s : List α)
    (root : Int) :
    siftDownLoop64 c end_ (fuel + 1) s root =
      if leftChildIndex64 root ≤ end_ then
        (index s root).bind fun x => (index s (leftChildIndex64 root)).bind fun y =>
          if wrapInt (leftChildIndex64 root + 1) ≤ end_ then
            (index s (if c.Less x y then leftChildIndex64 root else root)).bind fun x' =>
              (index s (wrapInt (leftChildIndex64 root + 1))).bind fun y' =>
                if (if c.Less x' y' then wrapInt (leftChildIndex64 root + 1)
                    else (if c.Less x y then leftChildIndex64 root else root)) = root
                then some s
                else (swapItems s root (if c.Less x' y' then wrapInt (leftChildIndex64 root + 1)
                    else (if c.Less x y then leftChildIndex64 root else root))).bind fun t =>
                  siftDownLoop64 c end_ fuel t
                    (if c.Less x' y' then wrapInt (leftChildIndex64 root + 1)
                      else (if c.Less x y then leftChildIndex64 root else root))
          else
            if (if c.Less x y then leftChildIndex64 root else root) = root then some s
            else (swapItems s root (if c.Less x y then leftChildIndex64 root else root)).bind
              fun t => siftDownLoop64 c end_ fuel t
                (if c.Less x y then leftChildIndex64 root else root)
      else some s := by
  rw [siftDownLoop64]
  rfl

/-- Below `2^62` nothing wraps around: the 64-bit `siftDown` loop and the loop over
unbounded integers are the same function. -/
theorem siftDownLoop64_eq (c : Comparator α) (end_ : Int) (he : end_ < 4611686018427387904) :
    ∀ (fuel : Nat) (s : List α) (r : Nat), r < 4611686018427387904 →
      siftDownLoop64 c end_ fuel s r = siftDownLoop c end_ fuel s r := by
  intro fuel
  induction fuel with
  | zero =>
    intro s r hr
    simp only [siftDownLoop64, siftDownLoop,
      leftChildIndex64_eq (r : Int) (by omega) (by omega)]
  | succ f ih =>
    intro s r hr
    rw [siftDownLoop64_succ_eq, siftDownLoop_succ_eq,
      leftChildIndex64_eq (r : Int) (by omega) (by omega)]
    have c1 : leftChildIndex (r : Int) = ((2 * r + 1 : Nat) : Int) := leftChildIndex_natCast r
    by_cases g : leftChildIndex (r : Int) ≤ end_
    · have e2 : wrapInt (leftChildIndex (r : Int) + 1) = leftChildIndex (r : Int) + 1 :=
        wrapInt_eq _ (by omega) (by omega)
      have c2 : leftChildIndex (r : Int) + 1 = ((2 * r + 2 : Nat) : Int) := by omega
      rw [e2]
      simp only [if_pos g]
      by_cases g2 : leftChildIndex (r : Int) + 1 ≤ end_
      · have hrec : ∀ (t : List α) (p q : Prop) [Decidable p] [Decidable q],
            siftDownLoop64 c end_ f t
              (if p then leftChildIndex (r : Int) + 1
                else (if q then leftChildIndex (r : Int) else (r : Int))) =
            siftDownLoop c end_ f t
              (if p then leftChildIndex (r : Int) + 1
                else (if q then leftChildIndex (r : Int) else (r : Int))) := by
          intro t p q _ _
          split_ifs
          · rw [c2]; exact ih t _ (by omega)
          · rw [c1]; exact ih t _ (by omega)
          · exact ih t r hr
        simp only [if_pos g2, hrec]
      · have hrec : ∀ (t : List α) (q : Prop) [Decidable q],
            siftDownLoop64 c end_ f t (if q then leftChildIndex (r : Int) else (r : Int)) =
            siftDownLoop c end_ f t (if q then leftChildIndex (r : Int) else (r : Int)) := by
          intro t q _
          split_ifs
          · rw [c1]; exact ih t _ (by omega)
          · exact ih t r hr
        simp only [if_neg g2, hrec]
    · simp only [if_neg g]

/-- The `siftDown` loop over unbounded integers, from a non-negative root with any
boundary below the length and enough iterations allowed: it returns, and the elements
move along a permutation of the positions that fixes every position beyond the
boundary and every position outside `D`. -/
theorem siftDownLoop_frame_int (c : Comparator α) (s : List α) (r fuel : Nat) (end_ : Int)
    (D : Nat → Prop) (hD : ∀ j, D j → D (2 * j + 1) ∧ D (2 * j + 2))
    (he : end_ < s.length) (hr : D r) (hf : end_ ≤ (r : Int) + fuel) :
    ∃ t, siftDownLoop c end_ fuel s r = some t ∧ t.length = s.length ∧ t.Perm s ∧
      (∀ k : Nat, (end_ < (k : Int) ∨ ¬ D k) → t[k]? = s[k]?) ∧
      ∃ σ : Equiv.Perm Nat, (∀ k : Nat, (end_ < (k : Int) ∨ ¬ D k) → σ k = k) ∧
        ∀ k, t[k]? = s[σ k]? := by
  by_cases h1 : -1 ≤ end_
  · have e : end_ = (((end_ + 1).toNat : Nat) : Int) - 1 := by omega
    have hk : ∀ k : Nat, (end_ < (k : Int) ∨ ¬ D k) → ((end_ + 1).toNat ≤ k ∨ ¬ D k) := by
      intro k hk
      rcases hk with hk | hk
      · exact Or.inl (by omega)
      · exact Or.inr hk
    obtain ⟨t, ht, hlen, hperm, hframe, _⟩ :=
      siftDownLoop_struct c (end_ + 1).toNat D hD fuel s r (by omega) hr (by omega)
    obtain ⟨σ, hfix, hmove⟩ :=
      siftDownLoop_equiv c (end_ + 1).toNat D hD fuel s r (by omega) hr t ht
    rw [← e] at ht
    exact ⟨t, ht, hlen, hperm, fun k h => hframe k (hk k h), σ,
      fun k h => hfix k (hk k h), hmove⟩
  · exact ⟨s, siftDownLoop_stop_int c s end_ r _ (by rw [leftChildIndex_natCast]; omega),
      rfl, List.Perm.refl _, fun _ _ => rfl, Equiv.refl _, fun _ _ => rfl, fun _ => rfl⟩
/-- The result of the `siftDown` loop does not depend on the number of iterations
allowed, once `end - root` are. -/
theorem siftDownLoop_fuel (c : Comparator α) (n : Nat) :
    ∀ (f1 f2 : Nat) (s : List α) (r : Nat), n ≤ s.length → n ≤ r + f1 + 1 →
      n ≤ r + f2 + 1 →
      siftDownLoop c ((n : Int) - 1) f1 s r = siftDownLoop c ((n : Int) - 1) f2 s r := by
  intro f1
  induction f1 with
  | zero =>
    intro f2 s r _ h1 _
    rw [siftDownLoop_stop c s n r 0 (by omega), siftDownLoop_stop c s n r f2 (by omega)]
  | succ a ih =>
    intro f2 s r hn h1 h2
    by_cases hr : n ≤ 2 * r + 1
    · rw [siftDownLoop_stop c s n r _ hr, siftDownLoop_stop c s n r f2 hr]
    · obtain ⟨b, rfl⟩ : ∃ b, f2 = b + 1 := ⟨f2 - 1, by omega⟩
      have descend : ∀ ch : Nat, (ch = 2 * r + 1 ∨ ch = 2 * r + 2) → ch < n →
          (swapItems s r ch).bind (fun t => siftDownLoop c ((n : Int) - 1) a t ch) =
          (swapItems s r ch).bind (fun t => siftDownLoop c ((n : Int) - 1) b t ch) := by
        intro ch hch hchn
        obtain ⟨s1, hs1, hlen1, _⟩ := swapItems_spec s r ch (by omega) (by omega)
        rw [hs1, Option.some_bind, Option.some_bind]
        exact ih b s1 ch (by omega) (by omega) (by omega)
      rcases siftDownLoop_step c s n r a hn (by omega) with
        ⟨a1, b1, E1⟩ | ⟨a1, b1, E1⟩ | ⟨h1', ab1, E1⟩ <;>
      rcases siftDownLoop_step c s n r b hn (by omega) with
        ⟨a2, b2, E2⟩ | ⟨a2, b2, E2⟩ | ⟨h2', ab2, E2⟩
      · rw [E1, E2]
      · rw [a1] at a2; cases a2
      · rcases ab2 with ⟨x, _⟩ | ⟨_, y⟩
        · rw [a1] at x; cases x
        · rw [b1 h2'] at y; cases y
      · rw [a1] at a2; cases a2
      · rw [E1, E2]; exact descend _ (Or.inl rfl) (by omega)
      · rcases ab2 with ⟨_, y⟩ | ⟨x, _⟩
        · rw [b1 h2'] at y; cases y
        · rw [a1] at x; cases x
      · rcases ab1 with ⟨x, _⟩ | ⟨_, y⟩
        · rw [a2] at x; cases x
        · rw [b2 h1'] at y; cases y
      · rcases ab1 with ⟨_, y⟩ | ⟨x, _⟩
        · rw [b2 h1'] at y; cases y
        · rw [a2] at x; cases x
      · rw [E1, E2]; exact descend _ (Or.inr rfl) h1'

/-- On slices of at most `2^62` elements and for `0 ≤ start < 2^62`, `end < len(s)`,
`siftDown` in 64-bit arithmetic and `siftDown` over unbounded integers are the same
function. -/
theorem siftDown64_eq_siftDown (c : Comparator α) (s : List α) (start : Nat) (end_ : Int)
    (hstart : start < 4611686018427387904) (hlen : s.length ≤ 4611686018427387904)
    (he : end_ < s.length) :
    siftDown64 c s start end_ = siftDown c s start end_ := by
  unfold siftDown64 siftDown
  rw [siftDownLoop64_eq c end_ (by omega) _ s start hstart]
  by_cases h1 : -1 ≤ end_
  · have e : end_ = (((end_ + 1).toNat : Nat) : Int) - 1 := by omega
    have key := siftDownLoop_fuel c (end_ + 1).toNat s.length (end_ - (start : Int)).toNat
      s start (by omega) (by omega) (by omega)
    rw [← e] at key
    exact key
  · rw [siftDownLoop_stop_int c s end_ start _ (by rw [leftChildIndex_natCast]; omega),
      siftDownLoop_stop_int c s end_ start _ (by rw [leftChildIndex_natCast]; omega)]


/-! ## The claims -/

/-- Claim C1 (invariant preservation): under a strict weak ordering, every heap
reached from `NewHeap c` or `Heapify x c` by a finite sequence of `Push`, `Pop`,
`RepairUp i` and `RepairDown i` (each `i` a valid index at the time of the call)
satisfies the max-heap invariant, and every further such operation returns without
fault and leaves a heap that satisfies it again. -/
theorem invariant_preserved (c : Comparator α) (hc : StrictWeakOrder c.Less) (h : Heap α)
    (hr : Reachable c h) :
    MaxHeap c h.Slice ∧
      ∀ op : Op α, op.valid h → ∃ h', h.apply op = some h' ∧ MaxHeap c h'.Slice := by
  obtain ⟨e, hh⟩ := reachable_heap c hc h hr
  refine ⟨hh, fun op hv => ?_⟩
  obtain ⟨h', h1, _, h3⟩ := apply_spec c hc h e hh op hv
  exact ⟨h', h1, h3⟩

theorem invariant_preserved_witness :
    StrictWeakOrder intCmp.Less ∧
    Reachable intCmp ⟨intCmp, [45, 32, 10, 20, 2, 5]⟩ ∧
    (MaxHeap intCmp [45, 32, 10, 20, 2, 5] ∧
      ∀ op : Op Int, op.valid ⟨intCmp, [45, 32, 10, 20, 2, 5]⟩ →
        ∃ h', Heap.apply ⟨intCmp, [45, 32, 10, 20, 2, 5]⟩ op = some h' ∧
          MaxHeap intCmp h'.Slice) := by
  have reach : Reachable intCmp ⟨intCmp, [45, 32, 10, 20, 2, 5]⟩ :=
    Reachable.step ⟨intCmp, [51, 32, 45, 20, 2, 5, 10]⟩ Op.pop
      ⟨intCmp, [45, 32, 10, 20, 2, 5]⟩
      (Reachable.step ⟨intCmp, [45, 32, 10, 20, 2, 5]⟩ (Op.push 51)
        ⟨intCmp, [51, 32, 45, 20, 2, 5, 10]⟩
        (Reachable.heapify [10, 2, 5, 20, 32, 45] ⟨intCmp, [45, 32, 10, 20, 2, 5]⟩
          (by rfl))
        trivial (by rfl))
      trivial (by rfl)
  exact ⟨intCmp_strictWeak, reach, invariant_preserved intCmp intCmp_strictWeak _ reach⟩

/-- Claim C2 (Heapify establishes the heap invariant): for every sequence `x` and
every comparator whose `Less` is a strict weak ordering, `Heapify x c` returns a
heap whose slice satisfies the max-heap invariant and has the length of `x`; for
empty `x` the result is an empty heap. -/
theorem heapify_establishes_invariant (x : List α) (c : Comparator α)
    (hc : StrictWeakOrder c.Less) :
    ∃ h, Heapify x c = some h ∧ MaxHeap c h.Slice ∧ h.Slice.length = x.length ∧
      (x = [] → h.Slice = []) := by
  obtain ⟨h, hh, _, hlen, hperm⟩ := Heapify_struct x c
  refine ⟨h, hh, Heapify_heap x c hc h hh, hlen, ?_⟩
  intro hx
  subst hx
  exact List.length_eq_zero.1 hlen

theorem heapify_establishes_invariant_witness :
    StrictWeakOrder intCmp.Less ∧
    (∃ h, Heapify [10, 2, 5, 20, 32, 45] intCmp = some h ∧ MaxHeap intCmp h.Slice ∧
      h.Slice.length = [10, 2, 5, 20, 32, 45].length ∧
      (([10, 2, 5, 20, 32, 45] : List Int) = [] → h.Slice = [])) ∧
    (Heapify [10, 2, 5, 20, 32, 45] intCmp).map Heap.Slice = some [45, 32, 10, 20, 2, 5] :=
  ⟨intCmp_strictWeak, heapify_establishes_invariant _ intCmp intCmp_strictWeak, by decide⟩

/-- Claim C3 (Pop returns the maximum): for every non-empty heap whose slice
satisfies the max-heap invariant under a strict weak ordering, `Pop` returns an
element `r` of the pre-call slice such that `Less r y` is false for every element
`y` of the pre-call slice. -/
theorem pop_returns_maximum (h : Heap α) (hc : StrictWeakOrder h.comp.Less)
    (hh : MaxHeap h.comp h.Slice) (hne : h.Slice ≠ []) :
    ∃ r h', h.Pop = some (some r, h') ∧ r ∈ h.Slice ∧
      ∀ y ∈ h.Slice, h.comp.Less r y = false := by
  cases hs : h.Slice with
  | nil => exact absurd hs hne
  | cons x rest =>
    obtain ⟨t, ht, _, _⟩ := Pop_cons h x rest hs
    rw [hs] at hh
    exact ⟨x, _, ht, List.mem_cons_self _ _, maxHeap_head_max h.comp hc x rest hh⟩

theorem pop_returns_maximum_witness :
    StrictWeakOrder intCmp.Less ∧ MaxHeap intCmp [45, 32, 10, 20, 2, 5] ∧
    ([45, 32, 10, 20, 2, 5] : List Int) ≠ [] ∧
    (∃ r h', Heap.Pop ⟨intCmp, [45, 32, 10, 20, 2, 5]⟩ = some (some r, h') ∧
      r ∈ ([45, 32, 10, 20, 2, 5] : List Int) ∧
      ∀ y ∈ ([45, 32, 10, 20, 2, 5] : List Int), intCmp.Less r y = false) ∧
    (Heap.Pop ⟨intCmp, [45, 32, 10, 20, 2, 5]⟩).map Prod.fst = some (some 45) :=
  ⟨intCmp_strictWeak, by decide, by decide,
    pop_returns_maximum ⟨intCmp, [45, 32, 10, 20, 2, 5]⟩ intCmp_strictWeak (by decide)
      (by decide), by decide⟩

/-- Claim C4 (Sort sorts a heap ascending): for every heap whose slice satisfies the
max-heap invariant under a strict weak ordering, `Sort` returns and the slice is then
in non-decreasing order: for all indices `i < j`, `Less(Slice[j], Slice[i])` is
false. -/
theorem sort_ascending (h : Heap α) (hc : StrictWeakOrder h.comp.Less)
    (hh : MaxHeap h.comp h.Slice) :
    ∃ h', h.Sort = some h' ∧ Ascending h.comp h'.Slice := by
  obtain ⟨t, ht, _, _⟩ := Sort_struct h
  exact ⟨_, ht, Sort_sorted h hc hh _ ht⟩

theorem sort_ascending_witness :
    StrictWeakOrder intCmp.Less ∧ MaxHeap intCmp [45, 32, 10, 20, 2, 5] ∧
    (∃ h', Heap.Sort ⟨intCmp, [45, 32, 10, 20, 2, 5]⟩ = some h' ∧
      Ascending intCmp h'.Slice) ∧
    (Heap.Sort ⟨intCmp, [45, 32, 10, 20, 2, 5]⟩).map Heap.Slice =
      some [2, 5, 10, 20, 32, 45] :=
  ⟨intCmp_strictWeak, by decide,
    sort_ascending ⟨intCmp, [45, 32, 10, 20, 2, 5]⟩ intCmp_strictWeak (by decide),
    by decide⟩

/-- Claim C5 (Sort loses nothing): for every heap, whatever its slice holds and
whatever the comparator, `Sort` returns, and the slice afterwards has the same
length as before and is a permutation of the slice before: every element occurs
the same number of times. -/
theorem sort_loses_nothing [DecidableEq α] (h : Heap α) :
    ∃ h', h.Sort = some h' ∧ h'.Slice.length = h.Slice.length ∧
      h'.Slice.Perm h.Slice ∧ ∀ a, h'.Slice.count a = h.Slice.count a := by
  obtain ⟨t, ht, hlen, hperm⟩ := Sort_struct h
  exact ⟨_, ht, hlen, hperm, fun a => hperm.count_eq a⟩
/-- Claim C6 (Heapify-then-Sort round trip): for every sequence `x` and a comparator
whose `Less` is a strict total order, `Heapify x c` followed by `Sort` returns, and
the slice then equals `x` sorted in ascending order by that ordering. -/
theorem heapify_then_sort (x : List α) (c : Comparator α) (hc : StrictTotalOrder c.Less) :
    ∃ h h', Heapify x c = some h ∧ h.Sort = some h' ∧ h'.Slice = sortedBy c x := by
  obtain ⟨h, hh, hcomp, _, hperm⟩ := Heapify_struct x c
  have hheap := Heapify_heap x c hc.toWeak h hh
  subst hcomp
  obtain ⟨t, ht, _, hpermt⟩ := Sort_struct h
  have hasc := Sort_sorted h hc.toWeak hheap _ ht
  refine ⟨h, _, hh, ht, ?_⟩
  haveI : IsTotal α (fun a b => h.comp.Less b a = false) := ⟨by
    intro a b
    cases hba : h.comp.Less b a with
    | false => exact Or.inl rfl
    | true => exact Or.inr (hc.toWeak.asymm b a hba)⟩
  haveI : IsTrans α (fun a b => h.comp.Less b a = false) := ⟨by
    intro a b d hab hbd
    exact hc.toWeak.neg_trans d b a hbd hab⟩
  haveI : IsAntisymm α (fun a b => h.comp.Less b a = false) := ⟨by
    intro a b hab hba
    exact hc.total a b hba hab⟩
  exact List.eq_of_perm_of_sorted
    ((hpermt.trans hperm).trans (List.perm_insertionSort _ x).symm)
    (ascending_pairwise h.comp t hasc) (List.sorted_insertionSort _ x)

theorem heapify_then_sort_witness :
    StrictTotalOrder intCmp.Less ∧
    (∃ h h', Heapify [10, 2, 5, 20, 32, 45] intCmp = some h ∧ h.Sort = some h' ∧
      h'.Slice = sortedBy intCmp [10, 2, 5, 20, 32, 45]) ∧
    sortedBy intCmp [10, 2, 5, 20, 32, 45] = [2, 5, 10, 20, 32, 45] :=
  ⟨intCmp_strictTotal, heapify_then_sort [10, 2, 5, 20, 32, 45] intCmp intCmp_strictTotal,
    by decide⟩

/-- Claim C7 (Heapify then repeated Pop drains in non-increasing order): for every
sequence `x` of length `n` and every comparator whose `Less` is a strict weak
ordering, calling `Pop` `n` times on `Heapify x c` returns values `p1..pn` (never
`nil`) such that `Less p_k p_(k+1)` is false for every consecutive pair, `p1..pn`
is a permutation of `x`, and the heap is empty afterwards. -/
theorem heapify_then_drain (x : List α) (c : Comparator α) (hc : StrictWeakOrder c.Less) :
    ∃ (h : Heap α) (ps : List α) (h' : Heap α), Heapify x c = some h ∧
      popN x.length h = some (ps.map some, h') ∧ h'.Slice = [] ∧ ps.length = x.length ∧
      ps.Perm x ∧ ps.Chain' (fun a b => c.Less a b = false) := by
  obtain ⟨h, hh, hcomp, hlen, hperm⟩ := Heapify_struct x c
  have hheap := Heapify_heap x c hc h hh
  obtain ⟨ps, hps, hpperm, hpw⟩ := popN_spec c hc x.length h.Slice hlen hheap
  have e : h = ⟨c, h.Slice⟩ := by
    cases h
    cases hcomp
    rfl
  rw [← e] at hps
  exact ⟨h, ps, ⟨c, []⟩, hh, hps, rfl, (hpperm.trans hperm).length_eq,
    hpperm.trans hperm, hpw.chain'⟩

theorem heapify_then_drain_witness :
    StrictWeakOrder intCmp.Less ∧
    (∃ (h : Heap Int) (ps : List Int) (h' : Heap Int),
      Heapify [10, 2, 5, 20, 32, 45] intCmp = some h ∧
      popN [10, 2, 5, 20, 32, 45].length h = some (ps.map some, h') ∧ h'.Slice = [] ∧
      ps.length = [10, 2, 5, 20, 32, 45].length ∧
      ps.Perm [10, 2, 5, 20, 32, 45] ∧ ps.Chain' (fun a b => intCmp.Less a b = false)) ∧
    ((Heapify [10, 2, 5, 20, 32, 45] intCmp).bind (popN 6)).map Prod.fst =
      some [some 45, some 32, some 20, some 10, some 5, some 2] :=
  ⟨intCmp_strictWeak, heapify_then_drain [10, 2, 5, 20, 32, 45] intCmp intCmp_strictWeak,
    by decide⟩

/-- Claim C8 (Pop on an empty heap): for every heap whose slice has length 0 (in
particular `NewHeap c`), `Pop` returns the empty signal `nil` without fault and
leaves the heap as it was, so the slice still has length 0. -/
theorem pop_empty (h : Heap α) (h0 : h.Slice.length = 0) :
    ∃ h', h.Pop = some (none, h') ∧ h' = h ∧ h'.Slice.length = 0 :=
  ⟨h, Pop_nil h (List.length_eq_zero.1 h0), rfl, h0⟩

theorem pop_empty_witness :
    (NewHeap intCmp).Slice.length = 0 ∧
    ∃ h', (NewHeap intCmp).Pop = some (none, h') ∧ h' = NewHeap intCmp ∧
      h'.Slice.length = 0 :=
  ⟨rfl, pop_empty (NewHeap intCmp) rfl⟩

/-- Claim C9 (Pop on a single-element heap): for every heap whose slice is exactly
`[v]`, for any value `v` and any comparator, `Pop` returns `v` and leaves the empty
slice; the result is the same whatever the comparator is. -/
theorem pop_single (h : Heap α) (v : α) (hs : h.Slice = [v]) :
    h.Pop = some (some v, { h with Slice := [] }) ∧
      ∀ c : Comparator α,
        (Heap.Pop ⟨c, h.Slice⟩).map (fun p => (p.1, p.2.Slice)) = some (some v, []) := by
  constructor
  · simp [Heap.Pop, hs, index]
  · intro c
    simp [Heap.Pop, hs, index]

theorem pop_single_witness :
    (Heap.mk intCmp [10]).Slice = [10] ∧
    (Heap.Pop ⟨intCmp, [10]⟩ = some (some 10, ⟨intCmp, []⟩) ∧
      ∀ c : Comparator Int,
        (Heap.Pop ⟨c, [10]⟩).map (fun p => (p.1, p.2.Slice)) = some (some 10, [])) :=
  ⟨rfl, pop_single ⟨intCmp, [10]⟩ 10 rfl⟩

/-- Claim C10 (Pop removes exactly the root): for every heap with `n ≥ 1` elements
(any slice contents, any comparator), `Pop` returns the pre-call `Slice[0]`, the
slice afterwards has length `n - 1` and is a permutation of the pre-call slice with
the element at index 0 removed. -/
theorem pop_removes_root (h : Heap α) (hn : 1 ≤ h.Slice.length) :
    ∃ r h', h.Pop = some (some r, h') ∧ index h.Slice 0 = some r ∧
      h'.Slice.length = h.Slice.length - 1 ∧ h'.Slice.Perm (h.Slice.eraseIdx 0) ∧
      (r :: h'.Slice).Perm h.Slice := by
  cases hs : h.Slice with
  | nil => rw [hs] at hn; simp at hn
  | cons x rest =>
    obtain ⟨t, ht, hperm, _⟩ := Pop_cons h x rest hs
    refine ⟨x, _, ht, by simp [index], ?_, ?_, hperm.cons x⟩
    · simpa using hperm.length_eq
    · simpa using hperm

theorem pop_removes_root_witness :
    1 ≤ ([45, 32, 10, 20, 2, 5] : List Int).length ∧
    (∃ r h', Heap.Pop ⟨intCmp, [45, 32, 10, 20, 2, 5]⟩ = some (some r, h') ∧
      index [45, 32, 10, 20, 2, 5] 0 = some r ∧
      h'.Slice.length = [45, 32, 10, 20, 2, 5].length - 1 ∧
      h'.Slice.Perm (([45, 32, 10, 20, 2, 5] : List Int).eraseIdx 0) ∧
      (r :: h'.Slice).Perm [45, 32, 10, 20, 2, 5]) ∧
    (Heap.Pop ⟨intCmp, [45, 32, 10, 20, 2, 5]⟩).map (fun p => (p.1, p.2.Slice)) =
      some (some 45, [32, 20, 10, 5, 2]) :=
  ⟨by decide, pop_removes_root ⟨intCmp, [45, 32, 10, 20, 2, 5]⟩ (by decide), by decide⟩
/-- Claim C11 (Push adds exactly one element): for every heap with `n` elements (any
slice contents, any comparator) and every value `v`, `Push v` returns, and the slice
then has length `n + 1` and is a permutation of the pre-call slice with `v`
appended. -/
theorem push_adds_one (h : Heap α) (v : α) :
    ∃ h', h.Push v = some h' ∧ h'.Slice.length = h.Slice.length + 1 ∧
      h'.Slice.Perm (h.Slice ++ [v]) := by
  obtain ⟨t, ht, hperm, _⟩ := Push_spec h v
  exact ⟨_, ht, by simpa using hperm.length_eq, hperm⟩

theorem push_adds_one_witness :
    (∃ h', Heap.Push ⟨intCmp, [45, 32, 10, 20, 2, 5]⟩ 51 = some h' ∧
      h'.Slice.length = [45, 32, 10, 20, 2, 5].length + 1 ∧
      h'.Slice.Perm ([45, 32, 10, 20, 2, 5] ++ [51])) ∧
    (Heap.Push ⟨intCmp, [45, 32, 10, 20, 2, 5]⟩ 51).map Heap.Slice =
      some [51, 32, 45, 20, 2, 5, 10] :=
  ⟨push_adds_one ⟨intCmp, [45, 32, 10, 20, 2, 5]⟩ 51, by decide⟩

/-- Claim C12 (RepairUp after an out-of-band increase): for every heap whose slice
satisfies the max-heap invariant under a strict weak ordering, every valid index `i`
(holding `x`) and every value `v` with `Less v x` false: setting `Slice[i] = v` and
calling `RepairUp i` returns, and the slice is then a max-heap again and a
permutation of the slice as it was just after the replacement. -/
theorem repairUp_after_increase (h : Heap α) (hc : StrictWeakOrder h.comp.Less)
    (hh : MaxHeap h.comp h.Slice) (i : Int) (x v : α) (hx : index h.Slice i = some x)
    (hv : h.comp.Less v x = false) :
    ∃ s1 h', setAt h.Slice i v = some s1 ∧
      Heap.RepairUp { h with Slice := s1 } i = some h' ∧
      MaxHeap h.comp h'.Slice ∧ h'.Slice.Perm s1 := by
  obtain ⟨r, rfl, hx'⟩ := index_some_natCast h.Slice i x hx
  have hr : r < h.Slice.length := by
    by_contra hcon
    rw [List.getElem?_eq_none (by omega)] at hx'
    cases hx'
  obtain ⟨t, ht, hperm, hheap⟩ := siftUp_after_increase h.comp hc h.Slice hh r x v hx' hv
  refine ⟨_, { h with Slice := t }, setAt_natCast h.Slice r v hr, ?_, hheap, hperm⟩
  simp only [Heap.RepairUp, Option.bind_eq_bind, ht, Option.some_bind, Option.pure_def]

theorem repairUp_after_increase_witness :
    StrictWeakOrder intCmp.Less ∧ MaxHeap intCmp [45, 32, 10, 20, 2, 5] ∧
    index ([45, 32, 10, 20, 2, 5] : List Int) 4 = some 2 ∧ intCmp.Less 50 2 = false ∧
    (∃ s1 h', setAt ([45, 32, 10, 20, 2, 5] : List Int) 4 50 = some s1 ∧
      Heap.RepairUp ⟨intCmp, s1⟩ 4 = some h' ∧
      MaxHeap intCmp h'.Slice ∧ h'.Slice.Perm s1) ∧
    (Heap.RepairUp ⟨intCmp, [45, 32, 10, 20, 50, 5]⟩ 4).map Heap.Slice =
      some [50, 45, 10, 20, 32, 5] :=
  ⟨intCmp_strictWeak, by decide, by decide, by decide,
    repairUp_after_increase ⟨intCmp, [45, 32, 10, 20, 2, 5]⟩ intCmp_strictWeak (by decide)
      4 2 50 (by decide) (by decide), by decide⟩

/-- Claim C13 (RepairDown after an out-of-band decrease): for every heap whose slice
satisfies the max-heap invariant under a strict weak ordering, every valid index `i`
(holding `x`) and every value `v` with `Less x v` false: setting `Slice[i] = v` and
calling `RepairDown i` returns, and the slice is then a max-heap again and a
permutation of the slice as it was just after the replacement. -/
theorem repairDown_after_decrease (h : Heap α) (hc : StrictWeakOrder h.comp.Less)
    (hh : MaxHeap h.comp h.Slice) (i : Int) (x v : α) (hx : index h.Slice i = some x)
    (hv : h.comp.Less x v = false) :
    ∃ s1 h', setAt h.Slice i v = some s1 ∧
      Heap.RepairDown { h with Slice := s1 } i = some h' ∧
      MaxHeap h.comp h'.Slice ∧ h'.Slice.Perm s1 := by
  obtain ⟨r, rfl, hx'⟩ := index_some_natCast h.Slice i x hx
  have hr : r < h.Slice.length := by
    by_contra hcon
    rw [List.getElem?_eq_none (by omega)] at hx'
    cases hx'
  obtain ⟨t, ht, hperm, hheap⟩ :=
    siftDown_after_decrease h.comp hc h.Slice hh r x v hx' hv
  refine ⟨_, { h with Slice := t }, setAt_natCast h.Slice r v hr, ?_, hheap, hperm⟩
  simp only [Heap.RepairDown, Option.bind_eq_bind, ht, Option.some_bind, Option.pure_def]

theorem repairDown_after_decrease_witness :
    StrictWeakOrder intCmp.Less ∧ MaxHeap intCmp [45, 32, 10, 20, 2, 5] ∧
    index ([45, 32, 10, 20, 2, 5] : List Int) 0 = some 45 ∧ intCmp.Less 45 1 = false ∧
    (∃ s1 h', setAt ([45, 32, 10, 20, 2, 5] : List Int) 0 1 = some s1 ∧
      Heap.RepairDown ⟨intCmp, s1⟩ 0 = some h' ∧
      MaxHeap intCmp h'.Slice ∧ h'.Slice.Perm s1) ∧
    (Heap.RepairDown ⟨intCmp, [1, 32, 10, 20, 2, 5]⟩ 0).map Heap.Slice =
      some [32, 20, 10, 1, 2, 5] :=
  ⟨intCmp_strictWeak, by decide, by decide, by decide,
    repairDown_after_decrease ⟨intCmp, [45, 32, 10, 20, 2, 5]⟩ intCmp_strictWeak
      (by decide) 0 45 1 (by decide) (by decide), by decide⟩

/-- Claim C14 (no failure path under valid preconditions): for every heap (any slice
contents, the empty slice included) and every comparator, `Heapify x c` for any `x`,
`Push v`, `Pop`, `Sort`, and `RepairUp i` and `RepairDown i` with
`0 ≤ i < len(Slice)` return a result: no slice access of `siftUp`, `siftDown` or
`swapItems` is out of range (an access out of range is `none` in the model).  At the
root `parentIndex 0 = -1` ends sift-up, and for the empty input
`parentIndex (-1) = -1` makes the loop of `Heapify` run zero times. -/
theorem no_failure_path (h : Heap α) :
    (∀ (x : List α) (c : Comparator α), (Heapify x c).isSome = true) ∧
    (∀ v : α, (h.Push v).isSome = true) ∧
    h.Pop.isSome = true ∧
    h.Sort.isSome = true ∧
    (∀ i : Int, 0 ≤ i → i < h.Slice.length →
      (h.RepairUp i).isSome = true ∧ (h.RepairDown i).isSome = true) ∧
    (∀ start end_ : Int, 0 ≤ start → end_ < h.Slice.length →
      (siftDown h.comp h.Slice start end_).isSome = true) ∧
    (∀ start : Int, 0 ≤ start → start < h.Slice.length →
      (siftUp h.comp h.Slice start).isSome = true) ∧
    (∀ i j : Int, 0 ≤ i → i < h.Slice.length → 0 ≤ j → j < h.Slice.length →
      (swapItems h.Slice i j).isSome = true) ∧
    parentIndex 0 = -1 ∧ parentIndex (-1) = -1 ∧
    (∀ c : Comparator α, Heapify [] c = some ⟨c, []⟩) := by
  refine ⟨?_, ?_, Pop_isSome h, ?_, ?_, ?_, ?_, ?_, by decide, by decide, fun _ => rfl⟩
  · intro x c
    obtain ⟨h1, e, _⟩ := Heapify_struct x c
    rw [e]; rfl
  · intro v
    obtain ⟨t, e, _⟩ := Push_spec h v
    rw [e]; rfl
  · obtain ⟨t, e, _⟩ := Sort_struct h
    rw [e]; rfl
  · intro i hi0 hi
    obtain ⟨t, e, _⟩ := RepairUp_struct h i hi0 hi
    obtain ⟨t2, e2, _⟩ := RepairDown_struct h i hi0 hi
    rw [e, e2]
    exact ⟨rfl, rfl⟩
  · intro start end_ h0 he
    obtain ⟨r, rfl⟩ := Int.eq_ofNat_of_zero_le h0
    obtain ⟨t, e, _⟩ := siftDown_struct_int h.comp h.Slice r end_ (fun _ => True)
      (fun _ _ => ⟨trivial, trivial⟩) he trivial
    rw [e]; rfl
  · intro start h0 hs
    obtain ⟨r, rfl⟩ := Int.eq_ofNat_of_zero_le h0
    obtain ⟨t, e, _⟩ := siftUp_struct h.comp h.Slice r (by omega)
    rw [e]; rfl
  · intro i j hi0 hi hj0 hj
    obtain ⟨a, rfl⟩ := Int.eq_ofNat_of_zero_le hi0
    obtain ⟨b, rfl⟩ := Int.eq_ofNat_of_zero_le hj0
    obtain ⟨t, e, _⟩ := swapItems_spec h.Slice a b (by omega) (by omega)
    rw [e]; rfl

theorem no_failure_path_witness :
    ((0 : Int) ≤ 2 ∧ (2 : Int) < ([3, 9, 1, 7] : List Int).length) ∧
    (Heap.RepairUp ⟨intCmp, [3, 9, 1, 7]⟩ 2).isSome = true ∧
    (Heap.RepairDown ⟨intCmp, [3, 9, 1, 7]⟩ 2).isSome = true ∧
    (Heap.Sort ⟨intCmp, []⟩).isSome = true :=
  ⟨by decide,
    ((no_failure_path ⟨intCmp, [3, 9, 1, 7]⟩).2.2.2.2.1 2 (by decide) (by decide)).1,
    ((no_failure_path ⟨intCmp, [3, 9, 1, 7]⟩).2.2.2.2.1 2 (by decide) (by decide)).2,
    (no_failure_path ⟨intCmp, ([] : List Int)⟩).2.2.2.1⟩

/-- Claim C15 (Sort consumes the heap): for every heap whose slice satisfies the
max-heap invariant under a strict weak ordering and holds two elements `a`, `b` with
`Less a b` true, `Sort` returns a slice that does not satisfy the max-heap
invariant: some parent is `Less` than one of its children. -/
theorem sort_consumes_heap (h : Heap α) (hc : StrictWeakOrder h.comp.Less)
    (hh : MaxHeap h.comp h.Slice) (a b : α) (ha : a ∈ h.Slice) (hb : b ∈ h.Slice)
    (hab : h.comp.Less a b = true) :
    ∃ h', h.Sort = some h' ∧ ¬ MaxHeap h.comp h'.Slice ∧
      ∃ k : Nat, 1 ≤ k ∧ k < h'.Slice.length ∧
        lessAt h.comp h'.Slice (parentIndex k) k = true := by
  obtain ⟨t, ht, _, hperm⟩ := Sort_struct h
  have hasc := Sort_sorted h hc hh _ ht
  have hnot : ¬ MaxHeap h.comp t := by
    intro hheap
    have := ascending_heap_no_less h.comp hc t hheap hasc a b
      (hperm.mem_iff.2 ha) (hperm.mem_iff.2 hb)
    rw [hab] at this
    cases this
  refine ⟨_, ht, hnot, ?_⟩
  by_contra hcon
  apply hnot
  intro k hk hk1
  cases hl : lessAt h.comp t (parentIndex k) k with
  | false => rfl
  | true => exact absurd ⟨k, hk1, hk, hl⟩ hcon

theorem sort_consumes_heap_witness :
    StrictWeakOrder intCmp.Less ∧ MaxHeap intCmp [3, 2, 1] ∧
    (1 : Int) ∈ ([3, 2, 1] : List Int) ∧ (3 : Int) ∈ ([3, 2, 1] : List Int) ∧
    intCmp.Less 1 3 = true ∧
    (∃ h', Heap.Sort ⟨intCmp, [3, 2, 1]⟩ = some h' ∧ ¬ MaxHeap intCmp h'.Slice ∧
      ∃ k : Nat, 1 ≤ k ∧ k < h'.Slice.length ∧
        lessAt intCmp h'.Slice (parentIndex k) k = true) ∧
    (Heap.Sort ⟨intCmp, [3, 2, 1]⟩).map Heap.Slice = some [1, 2, 3] ∧
    (Heap.Sort ⟨intCmp, [1, 2, 3]⟩).map Heap.Slice = some [2, 3, 1] ∧
    ¬ Ascending intCmp [2, 3, 1] :=
  ⟨intCmp_strictWeak, by decide, by decide, by decide, by decide,
    sort_consumes_heap ⟨intCmp, [3, 2, 1]⟩ intCmp_strictWeak (by decide) 1 3 (by decide)
      (by decide) (by decide),
    by decide, by decide, by decide⟩

/-- Claim C16 (repairing in the wrong direction): for every heap whose slice
satisfies the max-heap invariant under a strict weak ordering, every valid index `i`
(holding `x`) with a child `ch` in the slice (holding `y`), and every value `v` with
`Less v x` and `Less v y` true: after setting `Slice[i] = v`, `RepairUp i` returns
without fault and leaves the slice unchanged, and the max-heap invariant is violated
at `i`: the new `Slice[i]` is `Less` than its child. -/
theorem repairUp_wrong_direction (h : Heap α) (hc : StrictWeakOrder h.comp.Less)
    (hh : MaxHeap h.comp h.Slice) (i ch : Nat) (x y v : α)
    (hch : ch = 2 * i + 1 ∨ ch = 2 * i + 2)
    (hx : index h.Slice i = some x) (hy : index h.Slice ch = some y)
    (hvx : h.comp.Less v x = true) (hvy : h.comp.Less v y = true) :
    ∃ s1, setAt h.Slice i v = some s1 ∧
      Heap.RepairUp { h with Slice := s1 } i = some { h with Slice := s1 } ∧
      lessAt h.comp s1 i ch = true ∧ ¬ MaxHeap h.comp s1 := by
  rw [index_natCast] at hx hy
  have hi : i < h.Slice.length := by
    by_contra hcon
    rw [List.getElem?_eq_none (by omega)] at hx
    cases hx
  have hchn : ch < h.Slice.length := by
    by_contra hcon
    rw [List.getElem?_eq_none (by omega)] at hy
    cases hy
  have hviol : lessAt h.comp (h.Slice.set i v) i ch = true := by
    rw [lessAt_natCast h.comp (h.Slice.set i v) i ch v y (getElem?_set_same _ i v hi)
      (by rw [getElem?_set_other _ i ch v (by omega), hy])]
    exact hvy
  refine ⟨h.Slice.set i v, setAt_natCast h.Slice i v hi, ?_, hviol, ?_⟩
  · have hid : siftUp h.comp (h.Slice.set i v) i = some (h.Slice.set i v) := by
      refine siftUp_id h.comp _ i (by simpa using hi) ?_
      intro hi1
      obtain ⟨z, hz⟩ : ∃ z, h.Slice[(i - 1) / 2]? = some z :=
        ⟨_, List.getElem?_eq_getElem (by omega)⟩
      have h1 := (maxHeap_iff_parent _ _).1 hh i hi1 hi
      rw [lessAt_natCast h.comp h.Slice _ i z x hz hx] at h1
      rw [lessAt_natCast h.comp (h.Slice.set i v) _ i z v
        (by rw [getElem?_set_other _ i _ v (by omega), hz]) (getElem?_set_same _ i v hi)]
      cases hzv : h.comp.Less z v with
      | false => rfl
      | true =>
        have := hc.trans z v x hzv hvx
        rw [h1] at this
        cases this
    simp only [Heap.RepairUp, Option.bind_eq_bind, hid, Option.some_bind, Option.pure_def]
  · intro hheap
    have := (maxHeap_iff_heapOn _ _).1 hheap i ch trivial hch (by simpa using hchn)
    rw [hviol] at this
    cases this

theorem repairUp_wrong_direction_witness :
    StrictWeakOrder intCmp.Less ∧ MaxHeap intCmp [3, 2, 1] ∧
    (1 = 2 * 0 + 1 ∨ 1 = 2 * 0 + 2) ∧
    index ([3, 2, 1] : List Int) ((0 : Nat) : Int) = some 3 ∧
    index ([3, 2, 1] : List Int) ((1 : Nat) : Int) = some 2 ∧
    intCmp.Less 0 3 = true ∧ intCmp.Less 0 2 = true ∧
    (∃ s1, setAt ([3, 2, 1] : List Int) ((0 : Nat) : Int) 0 = some s1 ∧
      Heap.RepairUp ⟨intCmp, s1⟩ ((0 : Nat) : Int) = some ⟨intCmp, s1⟩ ∧
      lessAt intCmp s1 ((0 : Nat) : Int) ((1 : Nat) : Int) = true ∧ ¬ MaxHeap intCmp s1) ∧
    (Heap.RepairUp ⟨intCmp, [0, 2, 1]⟩ 0).map Heap.Slice = some [0, 2, 1] :=
  ⟨intCmp_strictWeak, by decide, by decide, by decide, by decide, by decide, by decide,
    repairUp_wrong_direction ⟨intCmp, [3, 2, 1]⟩ intCmp_strictWeak (by decide) 0 1 3 2 0
      (by decide) (by decide) (by decide) (by decide) (by decide), by decide⟩

/-- Claim C17 (sift-down repairs a subtree whose child subtrees are already heaps):
for every slice `s`, comparator whose `Less` is a strict weak ordering, and indices
`0 ≤ start`, `end < len(s)`: if every node `j ≠ start` of the subtree rooted at
`start` is `Less` than none of its children `k ≤ end`, then `siftDown start end`
returns, and afterwards every node `j` of that subtree, `start` included, is `Less`
than none of its children `k ≤ end`. -/
theorem siftDown_repairs_subtree (c : Comparator α) (hc : StrictWeakOrder c.Less)
    (s : List α) (start end_ : Nat) (he : end_ < s.length)
    (hsub : ∀ j k : Nat, InSubtree start j → j ≠ start → (k = 2 * j + 1 ∨ k = 2 * j + 2) →
      k ≤ end_ → lessAt c s j k = false) :
    ∃ t, siftDown c s start end_ = some t ∧
      ∀ j k : Nat, InSubtree start j → (k = 2 * j + 1 ∨ k = 2 * j + 2) → k ≤ end_ →
        lessAt c t j k = false := by
  have e : ((end_ : Nat) : Int) = ((end_ + 1 : Nat) : Int) - 1 := by omega
  obtain ⟨t, ht, _⟩ := siftDown_struct c s start (end_ + 1) (InSubtree start)
    (fun _ hj => hj.children) (by omega) InSubtree.root
  rw [← e] at ht
  refine ⟨t, ht, ?_⟩
  have hheap : HeapOn c t (InSubtree start) (end_ + 1) := by
    refine siftDown_heap c hc s start (end_ + 1) (InSubtree start)
      (fun _ hj => hj.children) (by omega) InSubtree.root ?_ ?_ t (by rw [← e]; exact ht)
    · intro j k hj hne hk hkn
      exact hsub j k hj hne hk (by omega)
    · intro p k hp hstart _ _
      have := hp.le
      omega
  intro j k hj hk hke
  exact hheap j k hj hk (by omega)

theorem siftDown_repairs_subtree_witness :
    StrictWeakOrder intCmp.Less ∧
    (5 : Nat) < ([10, 32, 45, 20, 2, 5] : List Int).length ∧
    (∀ j k : Nat, InSubtree 0 j → j ≠ 0 → (k = 2 * j + 1 ∨ k = 2 * j + 2) → k ≤ 5 →
      lessAt intCmp [10, 32, 45, 20, 2, 5] j k = false) ∧
    (∃ t, siftDown intCmp [10, 32, 45, 20, 2, 5] ((0 : Nat) : Int) ((5 : Nat) : Int) = some t ∧
      ∀ j k : Nat, InSubtree 0 j → (k = 2 * j + 1 ∨ k = 2 * j + 2) → k ≤ 5 →
        lessAt intCmp t j k = false) ∧
    siftDown intCmp [10, 32, 45, 20, 2, 5] 0 5 = some [45, 32, 10, 20, 2, 5] := by
  have hsub : ∀ j k : Nat, InSubtree 0 j → j ≠ 0 → (k = 2 * j + 1 ∨ k = 2 * j + 2) →
      k ≤ 5 → lessAt intCmp [10, 32, 45, 20, 2, 5] j k = false := by
    intro j k _ hj hk hke
    have h1 : j = 1 ∨ j = 2 := by omega
    rcases h1 with rfl | rfl <;> rcases hk with rfl | rfl <;> decide
  exact ⟨intCmp_strictWeak, by decide, hsub,
    siftDown_repairs_subtree intCmp intCmp_strictWeak [10, 32, 45, 20, 2, 5] 0 5
      (by decide) hsub, by decide⟩

/-- Claim C18 as stated fails on the code: for `start = 2^62` on the three-element
slice `[3, 2, 1]` with `end = 2` (so `0 ≤ start` and `end < len(s)`), `2*start + 1`
wraps around to `-2^63 + 1 ≤ end`, the loop of `siftDown` is entered and
`Slice[2^62]` is out of range: `siftDown` faults instead of leaving the slice
unchanged. -/
theorem siftDown64_faults_on_overflow :
    (0 : Int) ≤ 4611686018427387904 ∧ (2 : Int) < (([3, 2, 1] : List Int).length : Int) ∧
    leftChildIndex64 4611686018427387904 = -9223372036854775807 ∧
    index ([3, 2, 1] : List Int) 4611686018427387904 = none ∧
    siftDown64 intCmp [3, 2, 1] 4611686018427387904 2 = none ∧
    ¬ ∃ t, siftDown64 intCmp [3, 2, 1] ((4611686018427387904 : Nat) : Int) 2 = some t ∧
      t.length = ([3, 2, 1] : List Int).length ∧
      ∀ k : Nat, ((2 : Int) < (k : Int) ∨ ¬ InSubtree 4611686018427387904 k) →
        t[k]? = ([3, 2, 1] : List Int)[k]? := by
  refine ⟨by decide, by decide, by decide, by decide, by decide, ?_⟩
  rintro ⟨t, ht, _⟩
  have hnone : siftDown64 intCmp [3, 2, 1] ((4611686018427387904 : Nat) : Int) 2 = none := by
    decide
  rw [hnone] at ht
  cases ht

/-- Claim C18, as amended (sift-down respects its boundary and its subtree): for
every slice `s` of at most `2^62` elements, comparator, and indices
`0 ≤ start < 2^62` and `end < len(s)`, `siftDown start end` in Go's 64-bit
arithmetic returns and leaves unchanged every position greater than `end` and every
position that is neither `start` nor a descendant of `start`; the elements move along
a permutation of the positions that fixes all those positions, so the positions that
change are permuted among themselves.  Hence in `Sort` the sift-down with boundary
`e - 1` does not touch the tail from `e` on, and neither does the rest of the
loop. -/
theorem siftDown64_respects_boundary (c : Comparator α) (s : List α) (start : Nat)
    (end_ : Int) (hstart : start < 4611686018427387904)
    (hlen : s.length ≤ 4611686018427387904) (he : end_ < s.length) :
    (∃ t, siftDown64 c s start end_ = some t ∧ t.length = s.length ∧ t.Perm s ∧
      (∀ k : Nat, (end_ < (k : Int) ∨ ¬ InSubtree start k) → t[k]? = s[k]?) ∧
      ∃ σ : Equiv.Perm Nat,
        (∀ k : Nat, (end_ < (k : Int) ∨ ¬ InSubtree start k) → σ k = k) ∧
        ∀ k, t[k]? = s[σ k]?) ∧
    (∀ e : Nat, e ≤ s.length →
      (∃ t, siftDown64 c s 0 ((e : Int) - 1) = some t ∧ ∀ k, e ≤ k → t[k]? = s[k]?) ∧
      (∃ t, sortLoop c e s = some t ∧ ∀ k, e ≤ k → t[k]? = s[k]?)) := by
  constructor
  · unfold siftDown64
    rw [siftDownLoop64_eq c end_ (by omega) _ s start hstart]
    exact siftDownLoop_frame_int c s start s.length end_ (InSubtree start)
      (fun _ hj => hj.children) he InSubtree.root (by omega)
  · intro e hes
    constructor
    · obtain ⟨t, ht, _, _, hframe, _⟩ :=
        siftDownLoop_frame_int c s 0 s.length ((e : Int) - 1) (fun _ => True)
          (fun _ _ => ⟨trivial, trivial⟩) (by omega) trivial (by omega)
      refine ⟨t, ?_, fun k hk => hframe k (Or.inl (by omega))⟩
      unfold siftDown64
      rw [← ht]
      exact siftDownLoop64_eq c _ (by omega) _ s 0 (by decide)
    · obtain ⟨t, ht, _, _, hframe⟩ := sortLoop_struct c e s hes
      exact ⟨t, ht, hframe⟩

theorem siftDown64_respects_boundary_witness :
    (1 : Nat) < 4611686018427387904 ∧
    ([1, 2, 8, 7, 6, 5, 4] : List Int).length ≤ 4611686018427387904 ∧
    (4 : Int) < (([1, 2, 8, 7, 6, 5, 4] : List Int).length : Int) ∧
    ((∃ t, siftDown64 intCmp [1, 2, 8, 7, 6, 5, 4] ((1 : Nat) : Int) 4 = some t ∧
      t.length = [1, 2, 8, 7, 6, 5, 4].length ∧ t.Perm [1, 2, 8, 7, 6, 5, 4] ∧
      (∀ k : Nat, ((4 : Int) < (k : Int) ∨ ¬ InSubtree 1 k) →
        t[k]? = ([1, 2, 8, 7, 6, 5, 4] : List Int)[k]?) ∧
      ∃ σ : Equiv.Perm Nat,
        (∀ k : Nat, ((4 : Int) < (k : Int) ∨ ¬ InSubtree 1 k) → σ k = k) ∧
        ∀ k, t[k]? = ([1, 2, 8, 7, 6, 5, 4] : List Int)[σ k]?) ∧
    (∀ e : Nat, e ≤ ([1, 2, 8, 7, 6, 5, 4] : List Int).length →
      (∃ t, siftDown64 intCmp [1, 2, 8, 7, 6, 5, 4] 0 ((e : Int) - 1) = some t ∧
        ∀ k, e ≤ k → t[k]? = ([1, 2, 8, 7, 6, 5, 4] : List Int)[k]?) ∧
      (∃ t, sortLoop intCmp e [1, 2, 8, 7, 6, 5, 4] = some t ∧
        ∀ k, e ≤ k → t[k]? = ([1, 2, 8, 7, 6, 5, 4] : List Int)[k]?))) ∧
    siftDown64 intCmp [1, 2, 8, 7, 6, 5, 4] 1 4 = some [1, 7, 8, 2, 6, 5, 4] :=
  ⟨by decide, by decide, by decide,
    siftDown64_respects_boundary intCmp [1, 2, 8, 7, 6, 5, 4] 1 4 (by decide) (by decide)
      (by decide),
    by decide⟩

/-- Claim C19 (no swap without a strict violation): for every heap whose slice
satisfies the max-heap invariant (no assumption on the comparator; a parent and a
child may be equal) and every valid index `i`, `RepairUp i` and `RepairDown i`
return the heap exactly unchanged; more generally, for `0 ≤ start` and
`end < len(s)`, `siftDown start end` returns `s` unchanged whenever
`Less(s[start], s[2*start+1])` is false and either `2*start+2 > end` or
`Less(s[start], s[2*start+2])` is false. -/
theorem repair_valid_heap_identity :
    (∀ (h : Heap α), MaxHeap h.comp h.Slice → ∀ i : Int, 0 ≤ i → i < h.Slice.length →
      h.RepairUp i = some h ∧ h.RepairDown i = some h) ∧
    (∀ (c : Comparator α) (s : List α) (start : Nat) (end_ : Int), end_ < s.length →
      lessAt c s start (2 * start + 1 : Nat) = false →
      (end_ < ((2 * start + 2 : Nat) : Int) ∨ lessAt c s start (2 * start + 2 : Nat) = false) →
      siftDown c s start end_ = some s) := by
  constructor
  · intro h hh i hi0 hi
    obtain ⟨r, rfl⟩ := Int.eq_ofNat_of_zero_le hi0
    have hr : r < h.Slice.length := by omega
    have hup : siftUp h.comp h.Slice r = some h.Slice :=
      siftUp_id h.comp h.Slice r hr (fun h1 => (maxHeap_iff_parent _ _).1 hh r h1 hr)
    have hh' := (maxHeap_iff_heapOn _ _).1 hh
    have hdown : siftDown h.comp h.Slice r ((h.Slice.length : Int) - 1) = some h.Slice :=
      siftDown_id_int h.comp h.Slice r _ (by omega)
        (fun g => hh' r _ trivial (Or.inl rfl) (by omega))
        (fun g => hh' r _ trivial (Or.inr rfl) (by omega))
    constructor
    · simp only [Heap.RepairUp, Option.bind_eq_bind, hup, Option.some_bind, Option.pure_def]
    · simp only [Heap.RepairDown, Option.bind_eq_bind, hdown, Option.some_bind,
        Option.pure_def]
  · intro c s start end_ he h1 h2
    refine siftDown_id_int c s start end_ he (fun _ => h1) ?_
    intro g
    rcases h2 with h2 | h2
    · omega
    · exact h2

theorem repair_valid_heap_identity_witness :
    MaxHeap intCmp [5, 5, 3, 5, 5] ∧
    ((0 : Int) ≤ 1 ∧ (1 : Int) < ([5, 5, 3, 5, 5] : List Int).length) ∧
    (Heap.RepairUp ⟨intCmp, [5, 5, 3, 5, 5]⟩ 1 = some ⟨intCmp, [5, 5, 3, 5, 5]⟩ ∧
      Heap.RepairDown ⟨intCmp, [5, 5, 3, 5, 5]⟩ 1 = some ⟨intCmp, [5, 5, 3, 5, 5]⟩) ∧
    siftDown intCmp [9, 1, 2, 7, 8] ((0 : Nat) : Int) 4 = some [9, 1, 2, 7, 8] :=
  ⟨by decide, by decide,
    repair_valid_heap_identity.1 ⟨intCmp, [5, 5, 3, 5, 5]⟩ (by decide) 1 (by decide)
      (by decide),
    repair_valid_heap_identity.2 intCmp [9, 1, 2, 7, 8] 0 4 (by decide) (by decide)
      (Or.inr (by decide))⟩

/-- Claim C20 (Heapify keeps the elements): for every sequence `x` and every
comparator (no ordering assumption), `Heapify x c` returns a heap whose slice has
the same length as `x` and is a permutation of `x`: every element occurs the same
number of times as in `x`. -/
theorem heapify_keeps_elements [DecidableEq α] (x : List α) (c : Comparator α) :
    ∃ h, Heapify x c = some h ∧ h.Slice.length = x.length ∧ h.Slice.Perm x ∧
      ∀ a, h.Slice.count a = x.count a := by
  obtain ⟨h, hh, _, hlen, hperm⟩ := Heapify_struct x c
  exact ⟨h, hh, hlen, hperm, fun a => hperm.count_eq a⟩

theorem heapify_keeps_elements_witness :
    (∃ h, Heapify [10, 2, 5, 20, 32, 45] intCmp = some h ∧
      h.Slice.length = [10, 2, 5, 20, 32, 45].length ∧
      h.Slice.Perm [10, 2, 5, 20, 32, 45] ∧
      ∀ a, h.Slice.count a = ([10, 2, 5, 20, 32, 45] : List Int).count a) ∧
    (Heapify [10, 2, 5, 20, 32, 45] intCmp).map Heap.Slice = some [45, 32, 10, 20, 2, 5] :=
  ⟨heapify_keeps_elements [10, 2, 5, 20, 32, 45] intCmp, by decide⟩

end GoHeap
